import Mathlib

/-!
Verification of the Foreman orchestrator (unmanic/libs/foreman.py): a shallow
embedding of the worker-pool lifecycle, pool reconciliation, event scheduling,
the configuration-change gate and the dispatch loop, with theorems checking the
specification's claims against the embedded code.

The pool map `worker_threads` (a Python dict keyed by worker id) is embedded as
an association list `List (String × Worker)`; dict iteration order is list
order, dict value update is an order-preserving map, dict insertion appends.
External collaborators that are not part of the sources (the Worker thread
class, the WorkerGroup store, the library/plugin configuration store, the
frontend message channel) are modelled from the spec where their behaviour
matters; each such definition carries a `Modelled from the spec:` comment.
-/

set_option maxHeartbeats 1000000

namespace Unmanic

/-- Redundancy state of a worker handle: not redundant, redundant-pending
(exit after the current task) or redundant-immediate (exit now). -/
inductive Redundancy where
  | notRedundant
  | pending
  | immediate
  deriving DecidableEq, Repr

/-- Modelled from the spec: the WorkerHandle fields the Foreman reads and the
documented signals it writes (workers.py is not among the sources; spec §3
WorkerHandle, §4.2 lifecycle state machine). `idle`, `alive`, `paused` are the
worker-owned status flags the Foreman observes; `redundant` is the redundancy
signal the Foreman sets. -/
structure Worker where
  name : String
  workerGroupId : Nat
  idle : Bool
  alive : Bool
  paused : Bool
  redundant : Redundancy
  deriving DecidableEq, Repr

/-- Modelled from the spec: `Worker.set_redundant(immediate)` moves the handle
to redundant-immediate when `immediate` is true and to redundant-pending
otherwise (spec §4.2). -/
def Worker.set_redundant (w : Worker) (immediate : Bool) : Worker :=
  { w with redundant := if immediate then .immediate else .pending }

/-- `Worker.is_alive()`: the liveness flag of the backing thread. -/
def Worker.is_alive (w : Worker) : Bool := w.alive

/-- `Worker.is_paused()`: the pause flag. -/
def Worker.is_paused (w : Worker) : Bool := w.paused

/-- Modelled from the spec: a worker self-reports that it can accept work when
it is idle, alive and not paused (spec §4.1), and not marked redundant (spec
§4.2: a redundant-pending worker refuses new tasks). -/
def Worker.can_accept_work (w : Worker) : Bool :=
  w.idle && w.alive && !w.paused && w.redundant == .notRedundant

/-- Modelled from the spec: assigning a task moves an idle worker to running
(spec §4.2, `idle → running` on task assignment). -/
def Worker.add_work (w : Worker) : Worker := { w with idle := false }

/-- Modelled from the spec: pausing sets the pause flag (spec §4.2). -/
def Worker.pause (w : Worker) : Worker := { w with paused := true }

/-- Modelled from the spec: resuming clears the pause flag (spec §4.2). -/
def Worker.unpause (w : Worker) : Worker := { w with paused := false }

/-- A point-in-time status snapshot of a worker (spec §4.2: obtainable without
blocking the worker). -/
structure WorkerStatus where
  name : String
  idle : Bool
  paused : Bool
  deriving DecidableEq, Repr

/-- Modelled from the spec: `Worker.get_status()` returns a read-only snapshot
of the worker's observable fields (spec §4.2). -/
def Worker.get_status (w : Worker) : WorkerStatus :=
  { name := w.name, idle := w.idle, paused := w.paused }

/-- One EventSchedule row (spec §3). Python falsy `schedule_time` /
`repetition` (None or the empty string) are embedded as `""`. -/
structure EventSchedule where
  schedule_time : String
  repetition : String
  schedule_task : String
  schedule_worker_count : Nat
  deriving DecidableEq, Repr

/-- One WorkerGroup row as returned by the WorkerGroup store (spec §3). -/
structure WorkerGroup where
  id : Nat
  name : String
  number_of_workers : Nat
  event_schedules : List EventSchedule
  deriving DecidableEq, Repr

/-- A frontend message dict: keys `id`, `type`, `code`, `message`, `timeout`. -/
structure FrontendMessage where
  id : String
  mtype : String
  code : String
  message : String
  timeout : Nat
  deriving DecidableEq, Repr

/-- Modelled from the spec: `frontend_messages.put(message)` appends a
notification (spec §6, fire-and-forget message channel). -/
def frontendPut (m : FrontendMessage) (l : List FrontendMessage) : List FrontendMessage :=
  l ++ [m]

/-- Modelled from the spec: `frontend_messages.update(message)` is an
idempotent upsert keyed by the message id (spec §6). -/
def frontendUpdate (m : FrontendMessage) (l : List FrontendMessage) : List FrontendMessage :=
  if l.any (fun x => x.id == m.id) then l.map (fun x => if x.id == m.id then m else x)
  else l ++ [m]

/-- Modelled from the spec: `frontend_messages.remove_item(id)` removes the
message with the given id (spec §6, idempotent removal). -/
def frontendRemoveItem (i : String) (l : List FrontendMessage) : List FrontendMessage :=
  l.filter (fun m => m.id != i)

/-- The value built by `get_current_library_configuration`: per-library plugin
configuration, embedded abstractly as library id paired with an opaque
serialized configuration blob. -/
abbrev LibrarySettings := List (Nat × String)

/-- The Foreman's `current_config` dict: the last recorded settings snapshot
and its hash (spec §3 ConfigSnapshot). -/
structure CurrentConfig where
  settings : LibrarySettings
  settings_hash : String
  deriving DecidableEq, Repr

/-- An opaque pending work item. -/
structure PTask where
  taskId : Nat
  deriving DecidableEq, Repr

/-- The worker pool map `self.worker_threads`: a dict keyed by worker id,
embedded as an association list. -/
abbrev Pool := List (String × Worker)

/-- Dict membership/lookup: the value at key `k` (first entry with that key;
a Python dict has unique keys). -/
def lookupW (p : Pool) (k : String) : Option Worker :=
  (p.find? (fun kv => kv.1 == k)).map (fun kv => kv.2)

/-- `k in worker_threads`. -/
def containsK (p : Pool) (k : String) : Bool :=
  (lookupW p k).isSome

/-- Dict value update at key `k` (order-preserving; identity when the key is
absent). -/
def updateW (p : Pool) (k : String) (f : Worker → Worker) : Pool :=
  p.map (fun kv => if kv.1 = k then (kv.1, f kv.2) else kv)

/-- The keys of the pool map. -/
def poolKeys (p : Pool) : List String := p.map (fun kv => kv.1)

/-- The mutable state of the Foreman thread together with the external stores
it reads and writes: the pool map, the idle-worker semaphore value, the abort
flag, the pending-task queue (items plus shutdown flag), `current_config`, the
frontend message list, the WorkerGroup store, `last_schedule_run` and the
logger output. -/
structure ForemanState where
  worker_threads : Pool
  idle_workers : Nat
  abort_flag : Bool
  pending_queue : List PTask
  pending_shutdown : Bool
  current_config : CurrentConfig
  frontend_messages : List FrontendMessage
  groups : List WorkerGroup
  last_schedule_run : Option String
  log_lines : List String
  deriving DecidableEq, Repr

attribute [ext] ForemanState

attribute [ext] Worker

/-- `self._log(message)`: append one line to the logger output. -/
def ForemanState.log (st : ForemanState) (msg : String) : ForemanState :=
  { st with log_lines := st.log_lines ++ [msg] }

/-- Decimal digit to character. -/
def digitChar (d : Nat) : Char := Char.ofNat (48 + d)

/-- Decimal digits of `n`, most significant first; the first argument is
structural fuel (any fuel > log10 n is enough, callers pass `n + 1`). -/
def natDigitsAux : Nat → Nat → List Nat
  | 0, _ => []
  | fuel + 1, n => if n < 10 then [n] else natDigitsAux fuel (n / 10) ++ [n % 10]

/-- Decimal rendering of a natural number: Python `str(i)` inside the worker
id/name format strings. -/
def natToStr (n : Nat) : String := String.mk ((natDigitsAux (n + 1) n).map digitChar)

/-- `"{}-{}".format(worker_group.get('name'), i)`: the derived worker id. -/
def mkWorkerId (groupName : String) (i : Nat) : String :=
  groupName ++ "-" ++ natToStr i

/-- `"{}-Worker-{}".format(worker_group.get('name'), (i + 1))`: the derived
worker display name. -/
def mkWorkerName (groupName : String) (i : Nat) : String :=
  groupName ++ "-Worker-" ++ natToStr (i + 1)

/-- `Foreman.prune_dead_threads`: drop every pool entry whose worker is not
alive. -/
def prune_dead_threads (st : ForemanState) : ForemanState :=
  { st with worker_threads := st.worker_threads.filter (fun kv => kv.2.is_alive) }

/-- Modelled from the spec: the state of a freshly constructed and started
Worker thread — idle, alive, not paused, not redundant (spec §4.2, §4.3). -/
def newWorker (worker_name : String) (worker_group : Nat) : Worker :=
  { name := worker_name, workerGroupId := worker_group, idle := true, alive := true,
    paused := false, redundant := .notRedundant }

/-- `Foreman.start_worker_thread`: construct and start a Worker and insert it
into the pool map under `worker_id`. Starting an idle worker registers one
idle-signal increment (spec §4.3; the release is performed by the worker
thread itself, which is not among the sources). -/
def start_worker_thread (worker_id worker_name : String) (worker_group : Nat)
    (st : ForemanState) : ForemanState :=
  { st with
    worker_threads := st.worker_threads ++ [(worker_id, newWorker worker_name worker_group)],
    idle_workers := st.idle_workers + 1 }

/-- `Foreman.mark_worker_thread_as_redundant(worker_id, immediate)`: set the
redundancy signal on the pool entry at `worker_id` (callers guard on key
presence; on an absent key this embedding is the identity where Python would
raise KeyError). The Python default for `immediate` is False. -/
def mark_worker_thread_as_redundant (worker_id : String) (immediate : Bool)
    (st : ForemanState) : ForemanState :=
  { st with worker_threads :=
      updateW st.worker_threads worker_id (fun w => w.set_redundant immediate) }

/-- One step of the creation loop of `init_worker_threads` (`for i in
range(worker_group.get('number_of_workers'))`): record the expected display
name, and create the worker when its derived id is not yet in the pool. -/
def createWorkersStep (g : WorkerGroup) (acc : ForemanState × List String) (i : Nat) :
    ForemanState × List String :=
  let worker_id := mkWorkerId g.name i
  let worker_name := mkWorkerName g.name i
  let names := acc.2 ++ [worker_name]
  if containsK acc.1.worker_threads worker_id then (acc.1, names)
  else (start_worker_thread worker_id worker_name g.id acc.1, names)

/-- One step of the removal loop of `init_worker_threads` (`for i in
range(worker_group.get('number_of_workers'), 12)`): if a worker with the
derived id exists, mark it redundant — immediate exactly when it is idle. -/
def removeWorkersStep (g : WorkerGroup) (st : ForemanState) (i : Nat) : ForemanState :=
  let worker_id := mkWorkerId g.name i
  match lookupW st.worker_threads worker_id with
  | some w => mark_worker_thread_as_redundant worker_id w.idle st
  | none => st

/-- Processing of one WorkerGroup inside `init_worker_threads`: accumulate the
group id and expected names, run the creation loop, then the removal loop. -/
def initGroupStep (acc : ForemanState × List Nat × List String) (g : WorkerGroup) :
    ForemanState × List Nat × List String :=
  let ids := acc.2.1 ++ [g.id]
  let created := (List.range g.number_of_workers).foldl (createWorkersStep g) (acc.1, acc.2.2)
  let st2 := (List.range' g.number_of_workers (12 - g.number_of_workers)).foldl
    (removeWorkersStep g) created.1
  (st2, ids, created.2)

/-- The final loop of `init_worker_threads`: mark redundant (immediate exactly
when idle) every worker whose group id is not among the live group ids or
whose display name is not among the currently expected names. -/
def staleSweep (ids : List Nat) (names : List String) (p : Pool) : Pool :=
  p.map (fun kv =>
    if kv.2.workerGroupId ∉ ids ∨ kv.2.name ∉ names then
      (kv.1, kv.2.set_redundant kv.2.idle)
    else kv)

/-- `Foreman.init_worker_threads`: pool reconciliation — prune dead handles,
create missing workers per group, mark extra indices redundant, then sweep
workers of removed or renamed groups. -/
def init_worker_threads (st : ForemanState) : ForemanState :=
  let st0 := prune_dead_threads st
  let acc := st0.groups.foldl initGroupStep (st0, ([], []))
  { acc.1 with worker_threads := staleSweep acc.2.1 acc.2.2 acc.1.worker_threads }

/-- `Foreman.stop`: set the abort flag, release the idle-worker semaphore
once, shut down the pending-task source immediately, then mark every pool
entry redundant with the default `immediate=False`. -/
def stop (st : ForemanState) : ForemanState :=
  let st1 := { st with abort_flag := true }
  let st2 := { st1 with idle_workers := st1.idle_workers + 1 }
  let st3 := { st2 with pending_shutdown := true }
  (poolKeys st3.worker_threads).foldl
    (fun s k => mark_worker_thread_as_redundant k false s) st3

/-- `Foreman.get_total_worker_count`: the sum of `number_of_workers` over all
WorkerGroups in the store. -/
def get_total_worker_count (st : ForemanState) : Nat :=
  st.groups.foldl (fun acc g => acc + g.number_of_workers) 0

/-- `Foreman.save_current_config(settings, settings_hash)`: record each
argument into `current_config` only when it is Python-truthy (a non-empty
value); then log. -/
def save_current_config (settings : Option LibrarySettings) (settings_hash : Option String)
    (st : ForemanState) : ForemanState :=
  let st1 := match settings with
    | some s =>
      if s ≠ [] then { st with current_config := { st.current_config with settings := s } }
      else st
    | none => st
  let st2 := match settings_hash with
    | some h =>
      if h ≠ "" then
        { st1 with current_config := { st1.current_config with settings_hash := h } }
      else st1
    | none => st1
  st2.log "Updated config. If this is modified, all workers will be paused"

/-- `Foreman.configuration_changed`: hash the current library configuration
(`hashFn` stands for `hashlib.md5(json.dumps(..., sort_keys=True))`, a fixed
function of the settings value; `current_settings` is the value read from the
external library store by `get_current_library_configuration`). Equal hash:
return False leaving the state alone. Different hash: record the new snapshot
and return True. -/
def configuration_changed (hashFn : LibrarySettings → String)
    (current_settings : LibrarySettings) (st : ForemanState) : Bool × ForemanState :=
  let current_settings_hash := hashFn current_settings
  if current_settings_hash = st.current_config.settings_hash then (false, st)
  else (true, save_current_config (some current_settings) (some current_settings_hash) st)

/-- The warning message `validate_worker_config` raises on a configuration
change. -/
def pluginSettingsMessage : FrontendMessage :=
  { id := "pluginSettingsChangeWorkersStopped", mtype := "warning",
    code := "pluginSettingsChangeWorkersStopped", message := "", timeout := 0 }

/-- `Foreman.validate_worker_config`: fold the three validation inputs into
one pass/fail result. `incompatible_plugins` is the result of the external
`PluginsHandler.get_incompatible_enabled_plugins` check and `within_limits`
the external `Library.within_library_count_limits` check (both collaborators
outside the sources; their own frontend messages are out of scope). -/
def validate_worker_config (hashFn : LibrarySettings → String)
    (incompatible_plugins within_limits : Bool) (current_settings : LibrarySettings)
    (st : ForemanState) : Bool × ForemanState :=
  let valid := true
  let valid := if incompatible_plugins then false else valid
  let changed := configuration_changed hashFn current_settings st
  let afterChange :=
    if changed.1 then
      (false,
        { changed.2 with
          frontend_messages := frontendPut pluginSettingsMessage changed.2.frontend_messages })
    else (valid, changed.2)
  let validFinal := if !within_limits then false else afterChange.1
  (validFinal, afterChange.2)

/-- Python truthiness of the optional `worker_group_id` argument (None and 0
are falsy). -/
def pyTruthyOptNat : Option Nat → Bool
  | none => false
  | some n => n != 0

/-- `Foreman.pause_worker_thread(worker_id)`: warn and return False when the
id is unknown; otherwise set the pause flag when not already paused, and
return True. -/
def pause_worker_thread (worker_id : String) (st : ForemanState) : Bool × ForemanState :=
  match lookupW st.worker_threads worker_id with
  | none =>
    (false, st.log ("Asked to pause Worker ID " ++ worker_id ++ ", but this was not found."))
  | some w =>
    if !w.is_paused then
      let st1 := st.log ("Asked to pause Worker ID " ++ worker_id)
      (true, { st1 with worker_threads := updateW st1.worker_threads worker_id Worker.pause })
    else (true, st)

/-- `Foreman.pause_all_worker_threads(worker_group_id)`: pause every worker,
optionally restricted to one group (the Python guard `if worker_group_id and
...` skips the filter for a falsy id). -/
def pause_all_worker_threads (worker_group_id : Option Nat) (st : ForemanState) :
    Bool × ForemanState :=
  (poolKeys st.worker_threads).foldl
    (fun acc k =>
      let skip := pyTruthyOptNat worker_group_id &&
        (match lookupW acc.2.worker_threads k with
         | some w => w.workerGroupId != worker_group_id.getD 0
         | none => false)
      if skip then acc
      else
        let r := pause_worker_thread k acc.2
        (acc.1 && r.1, r.2))
    (true, st)

/-- `Foreman.resume_worker_thread(worker_id)`: log, warn and return False when
the id is unknown; otherwise clear the pause flag and return True. -/
def resume_worker_thread (worker_id : String) (st : ForemanState) : Bool × ForemanState :=
  let st0 := st.log ("Asked to resume Worker ID " ++ worker_id)
  match lookupW st0.worker_threads worker_id with
  | none =>
    (false, st0.log ("Asked to resume Worker ID " ++ worker_id ++ ", but this was not found."))
  | some _ =>
    (true, { st0 with worker_threads := updateW st0.worker_threads worker_id Worker.unpause })

/-- `Foreman.resume_all_worker_threads(worker_group_id)`: resume every worker,
optionally restricted to one group. -/
def resume_all_worker_threads (worker_group_id : Option Nat) (st : ForemanState) :
    Bool × ForemanState :=
  (poolKeys st.worker_threads).foldl
    (fun acc k =>
      let skip := pyTruthyOptNat worker_group_id &&
        (match lookupW acc.2.worker_threads k with
         | some w => w.workerGroupId != worker_group_id.getD 0
         | none => false)
      if skip then acc
      else
        let r := resume_worker_thread k acc.2
        (acc.1 && r.1, r.2))
    (true, st)

/-- `Foreman.terminate_worker_thread(worker_id)`: log, warn and return False
when the id is unknown; otherwise mark the worker redundant with the default
`immediate=False` and return True. -/
def terminate_worker_thread (worker_id : String) (st : ForemanState) : Bool × ForemanState :=
  let st0 := st.log ("Asked to terminate Worker ID " ++ worker_id)
  match lookupW st0.worker_threads worker_id with
  | none =>
    (false,
      st0.log ("Asked to terminate Worker ID " ++ worker_id ++ ", but this was not found."))
  | some _ => (true, mark_worker_thread_as_redundant worker_id false st0)

/-- Modelled from the spec: `WorkerGroup.set_number_of_workers(n)` followed by
`WorkerGroup.save()` persists the new worker count for the group in the
external WorkerGroup store (spec §6; worker_group.py is not among the
sources). -/
def saveNumberOfWorkers (gid n : Nat) (groups : List WorkerGroup) : List WorkerGroup :=
  groups.map (fun g => if g.id == gid then { g with number_of_workers := n } else g)

/-- `Foreman.run_task(time_now, task, worker_count, worker_group)`: record the
time of this schedule run, then perform the scheduled action — pause all
workers of the group, resume them, or persist a new worker count. -/
def run_task (time_now : String) (task : String) (worker_count : Nat)
    (worker_group : WorkerGroup) (st : ForemanState) : ForemanState :=
  let worker_group_id := worker_group.id
  let st := { st with last_schedule_run := some time_now }
  if task = "pause" then
    (pause_all_worker_threads (some worker_group_id)
      (st.log "Running scheduled event - Pause all worker threads")).2
  else if task = "resume" then
    (resume_all_worker_threads (some worker_group_id)
      (st.log "Running scheduled event - Resume all worker threads")).2
  else if task = "count" then
    let st := st.log ("Running scheduled event - Setting worker count to " ++
      natToStr worker_count)
    { st with groups := saveNumberOfWorkers worker_group_id worker_count st.groups }
  else st

/-- The Python `days` list of `manage_event_schedules`. -/
def weekDays : List String :=
  ["monday", "tuesday", "wednesday", "thursday", "friday", "saturday", "sunday"]

/-- One EventSchedule check inside `manage_event_schedules`: skip on a falsy
schedule time, a schedule time different from the current minute, or a falsy
repetition; otherwise run the task when the repetition matches today, and
record that something was done. -/
def scheduleMatchStep (time_now day_name : String) (worker_group : WorkerGroup)
    (acc : ForemanState × Bool) (es : EventSchedule) : ForemanState × Bool :=
  if es.schedule_time = "" then acc
  else if time_now ≠ es.schedule_time then acc
  else if es.repetition = "" then acc
  else if es.repetition = "daily" then
    (run_task time_now es.schedule_task es.schedule_worker_count worker_group acc.1, true)
  else if es.repetition = "weekday" ∧ day_name ∉ ["saturday", "sunday"] then
    (run_task time_now es.schedule_task es.schedule_worker_count worker_group acc.1, true)
  else if es.repetition = "weekend" ∧ day_name ∈ ["saturday", "sunday"] then
    (run_task time_now es.schedule_task es.schedule_worker_count worker_group acc.1, true)
  else if es.repetition = day_name then
    (run_task time_now es.schedule_task es.schedule_worker_count worker_group acc.1, true)
  else acc

/-- Processing of one group snapshot inside `manage_event_schedules`: refetch
the group from the store by id (a vanished group is skipped with a debug log),
then check each of its event schedules. -/
def manageGroupStep (time_now day_name : String) (acc : ForemanState × Bool)
    (wg : WorkerGroup) : ForemanState × Bool :=
  match acc.1.groups.find? (fun g => g.id == wg.id) with
  | none =>
    (acc.1.log "While iterating through the worker groups, the worker group disappeared",
      acc.2)
  | some worker_group =>
    worker_group.event_schedules.foldl (scheduleMatchStep time_now day_name worker_group) acc

/-- `Foreman.manage_event_schedules`: for every WorkerGroup and every
EventSchedule whose schedule time equals the current wall-clock minute
(`time_now`, Python `datetime.today().strftime('%H:%M')`) and whose repetition
matches today (`day_of_week`, Python `weekday()`, 0 = Monday), run the
scheduled task; afterwards reconcile the pool once if anything ran. -/
def manage_event_schedules (time_now : String) (day_of_week : Nat)
    (st : ForemanState) : ForemanState :=
  let day_name := weekDays.getD day_of_week ""
  let acc := st.groups.foldl (manageGroupStep time_now day_name) (st, false)
  if acc.2 then init_worker_threads acc.1 else acc.1

/-- Outcome of one iteration of the Foreman monitor loop: the loop exited, or
it continues with the next iteration. -/
inductive StepOutcome where
  | exited
  | continued
  deriving DecidableEq, Repr

/-- One iteration of the dispatch portion of `Foreman.run` (the `while not
self.abort_flag.is_set()` body; the periodic scheduler jobs at the head of the
body are `manage_event_schedules` and `prune_dead_threads`, embedded
separately): check the abort flag, validate the worker configuration and
pause-all on failure, try to acquire the idle-worker semaphore
(`acquired_idle` is whether the bounded acquire succeeded), re-check the abort
flag, get from the pending-task source (shutdown raises `queue.ShutDown`, an
empty queue times out with `queue.Empty` and the idle signal is released
back), and hand an obtained task to the first worker that can accept work —
with no worker found, the `for`/`else` branch is `pass` and the task is
dropped. -/
def run_iteration (hashFn : LibrarySettings → String)
    (incompatible_plugins within_limits : Bool) (current_settings : LibrarySettings)
    (acquired_idle : Bool) (st : ForemanState) : StepOutcome × ForemanState :=
  if st.abort_flag then (.exited, st)
  else
    let v := validate_worker_config hashFn incompatible_plugins within_limits
      current_settings st
    if !v.1 then (.continued, (pause_all_worker_threads none v.2).2)
    else if !acquired_idle then (.continued, v.2)
    else
      let st2 := { v.2 with idle_workers := v.2.idle_workers - 1 }
      if st2.abort_flag then (.exited, st2)
      else if st2.pending_shutdown then (.exited, st2)
      else
        match st2.pending_queue with
        | [] => (.continued, { st2 with idle_workers := st2.idle_workers + 1 })
        | _task :: rest =>
          let st3 := { st2 with pending_queue := rest }
          match st3.worker_threads.find? (fun kv => kv.2.can_accept_work) with
          | some kv =>
            (.continued,
              { st3 with worker_threads := updateW st3.worker_threads kv.1 Worker.add_work })
          | none => (.continued, st3)

/-- `Foreman.postprocessor_queue_full`: with `processed_count` the length of
`task_queue.list_processed_tasks()` (an external sink), report and post the
halt status message when the count strictly exceeds the configured worker
total plus one; otherwise remove the status message. -/
def postprocessor_queue_full (processed_count : Nat) (st : ForemanState) :
    Bool × ForemanState :=
  let limit := get_total_worker_count st + 1
  let haltMsg : FrontendMessage :=
    { id := "pendingTaskHaltedPostProcessorQueueFull", mtype := "status",
      code := "pendingTaskHaltedPostProcessorQueueFull", message := "", timeout := 0 }
  if processed_count > limit then
    let st := st.log ("There are currently " ++ natToStr processed_count ++
      " items in the post-processor queue. Halting feeding workers until it drops below " ++
      natToStr limit ++ ".")
    (true,
      { st with frontend_messages := frontendUpdate haltMsg st.frontend_messages })
  else
    (false,
      { st with frontend_messages :=
          frontendRemoveItem "pendingTaskHaltedPostProcessorQueueFull" st.frontend_messages })

/-- Digits of a decimal numeral to its value; `none` when the list is empty
or holds a non-digit character. -/
def digitsToNat? (l : List Char) : Option Nat :=
  if l = [] then none
  else l.foldl
    (fun acc c =>
      match acc with
      | none => none
      | some n => if c.isDigit then some (n * 10 + (c.toNat - 48)) else none)
    (some 0)

/-- Python `int(...)` applied to a string: the parsed integer, or a raised
ValueError (`none`) for a string that is not an optionally-signed decimal
numeral. -/
def pyInt (s : String) : Option Int :=
  match s.data with
  | [] => none
  | c :: cs =>
    if c = '-' then (digitsToNat? cs).map (fun n => -(n : Int))
    else (digitsToNat? (c :: cs)).map (fun n => (n : Int))

/-- `Foreman.get_worker_status(worker_id)`: start from the empty result and
scan the pool map keys, comparing `int(worker_id) == int(thread)`; either
`int(...)` call raises ValueError on a non-numeric string, which propagates
out of the method (`Except.error`). -/
def get_worker_status (worker_id : String) (st : ForemanState) :
    Except String (Option WorkerStatus) :=
  st.worker_threads.foldl
    (fun acc kv => do
      let r ← acc
      match pyInt worker_id, pyInt kv.1 with
      | some a, some b => if a == b then pure (some kv.2.get_status) else pure r
      | _, _ => Except.error "ValueError")
    (Except.ok none)

/-! ## Basic lemmas about the pool map embedding -/

theorem lookupW_cons (kv : String × Worker) (p : Pool) (k : String) :
    lookupW (kv :: p) k = if kv.1 = k then some kv.2 else lookupW p k := by
  by_cases h : kv.1 = k <;> simp [lookupW, List.find?_cons, h]

theorem lookupW_updateW (p : Pool) (k k' : String) (f : Worker → Worker) :
    lookupW (updateW p k f) k' =
      if k' = k then (lookupW p k).map f else lookupW p k' := by
  induction p with
  | nil => by_cases h : k' = k <;> simp [lookupW, updateW, h]
  | cons kv p ih =>
    simp only [updateW] at ih ⊢
    by_cases h1 : kv.1 = k <;> by_cases h2 : k' = k <;>
      by_cases h3 : kv.1 = k' <;>
      simp_all [lookupW_cons]

theorem lookupW_append_single (p : Pool) (k0 : String) (w0 : Worker) (k : String) :
    lookupW (p ++ [(k0, w0)]) k =
      match lookupW p k with
      | some w => some w
      | none => if k0 = k then some w0 else none := by
  induction p with
  | nil => by_cases h : k0 = k <;> simp [lookupW, List.find?_cons, h]
  | cons kv p ih =>
    by_cases h : kv.1 = k <;> simp [lookupW_cons, h, ih]

theorem mem_updateW {kv' : String × Worker} {p : Pool} {k : String} {f : Worker → Worker} :
    kv' ∈ updateW p k f ↔
      ∃ kv, kv ∈ p ∧ kv' = if kv.1 = k then (kv.1, f kv.2) else kv := by
  simp only [updateW, List.mem_map]
  constructor
  · rintro ⟨kv, hkv, rfl⟩; exact ⟨kv, hkv, rfl⟩
  · rintro ⟨kv, hkv, rfl⟩; exact ⟨kv, hkv, rfl⟩

theorem poolKeys_updateW (p : Pool) (k : String) (f : Worker → Worker) :
    poolKeys (updateW p k f) = poolKeys p := by
  induction p with
  | nil => rfl
  | cons kv p ih =>
    by_cases h : kv.1 = k <;> simp [poolKeys, updateW, h] at ih ⊢ <;> exact ih

theorem mem_of_lookupW {p : Pool} {k : String} {w : Worker} :
    lookupW p k = some w → (k, w) ∈ p := by
  intro h
  induction p with
  | nil => simp [lookupW] at h
  | cons kv p ih =>
    rw [lookupW_cons] at h
    by_cases hk : kv.1 = k
    · rw [if_pos hk] at h
      obtain rfl := Option.some.inj h
      exact hk ▸ List.mem_cons_self kv p
    · rw [if_neg hk] at h
      exact List.mem_cons_of_mem _ (ih h)

theorem lookupW_of_mem {p : Pool} {kv : String × Worker} (hnd : (poolKeys p).Nodup)
    (hm : kv ∈ p) : lookupW p kv.1 = some kv.2 := by
  induction p with
  | nil => cases hm
  | cons kv0 p ih =>
    rcases List.mem_cons.mp hm with rfl | hm'
    · simp [lookupW_cons]
    · have hk : kv0.1 ≠ kv.1 := by
        intro h
        have : kv.1 ∈ poolKeys p := List.mem_map_of_mem _ hm'
        rw [poolKeys, List.map_cons] at hnd
        exact (List.nodup_cons.mp hnd).1 (h ▸ this)
      have hnd' : (poolKeys p).Nodup := by
        rw [poolKeys, List.map_cons] at hnd
        exact (List.nodup_cons.mp hnd).2
      rw [lookupW_cons, if_neg hk]
      exact ih hnd' hm'

theorem mem_poolKeys_of_mem {p : Pool} {kv : String × Worker} (hm : kv ∈ p) :
    kv.1 ∈ poolKeys p := List.mem_map_of_mem _ hm

/-! ## C7: stop -/

theorem foldMark_fields (l : List String) (s : ForemanState) :
    ((l.foldl (fun s k => mark_worker_thread_as_redundant k false s) s).abort_flag
        = s.abort_flag) ∧
    ((l.foldl (fun s k => mark_worker_thread_as_redundant k false s) s).idle_workers
        = s.idle_workers) ∧
    ((l.foldl (fun s k => mark_worker_thread_as_redundant k false s) s).pending_shutdown
        = s.pending_shutdown) ∧
    ((l.foldl (fun s k => mark_worker_thread_as_redundant k false s) s).pending_queue
        = s.pending_queue) := by
  induction l generalizing s with
  | nil => exact ⟨rfl, rfl, rfl, rfl⟩
  | cons k l ih => exact ih (mark_worker_thread_as_redundant k false s)

theorem mem_foldMark (l : List String) (s : ForemanState) :
    ∀ kv ∈ (l.foldl (fun s k => mark_worker_thread_as_redundant k false s) s).worker_threads,
      (kv.1 ∈ l → kv.2.redundant = .pending) ∧ (kv.1 ∉ l → kv ∈ s.worker_threads) := by
  induction l generalizing s with
  | nil =>
    intro kv h
    exact ⟨fun hc => absurd hc (List.not_mem_nil _), fun _ => h⟩
  | cons k l ih =>
    intro kv h
    have H := ih (mark_worker_thread_as_redundant k false s) kv h
    constructor
    · intro hm
      by_cases hl : kv.1 ∈ l
      · exact H.1 hl
      · have hmem := H.2 hl
        rcases List.mem_cons.mp hm with hk | hl'
        · simp only [mark_worker_thread_as_redundant] at hmem
          rcases mem_updateW.mp hmem with ⟨kv0, _, heq⟩
          by_cases h0 : kv0.1 = k
          · rw [if_pos h0] at heq
            rw [heq]
            simp [Worker.set_redundant]
          · rw [if_neg h0] at heq
            rw [heq] at hk
            exact absurd hk h0
        · exact absurd hl' hl
    · intro hm
      have hl : kv.1 ∉ l := fun hh => hm (List.mem_cons_of_mem _ hh)
      have hmem := H.2 hl
      have hk : kv.1 ≠ k := fun hh => hm (hh ▸ List.mem_cons_self k l)
      simp only [mark_worker_thread_as_redundant] at hmem
      rcases mem_updateW.mp hmem with ⟨kv0, hkv0, heq⟩
      by_cases h0 : kv0.1 = k
      · rw [if_pos h0] at heq
        rw [heq] at hk
        exact absurd h0 hk
      · rw [if_neg h0] at heq
        exact heq ▸ hkv0

/-- C7: `stop` sets the abort flag, releases the idle-worker semaphore exactly
once, shuts down the pending-task source immediately, and marks every handle
in the pool map redundant in the pending (non-immediate) mode; afterwards the
dispatch loop iteration exits immediately, assigning no further task. -/
theorem c7_stop_behaviour (st : ForemanState) :
    (stop st).abort_flag = true ∧
    (stop st).idle_workers = st.idle_workers + 1 ∧
    (stop st).pending_shutdown = true ∧
    (∀ kv ∈ (stop st).worker_threads, kv.2.redundant = .pending) ∧
    (∀ hashFn incompatible_plugins within_limits current_settings acquired_idle,
      run_iteration hashFn incompatible_plugins within_limits current_settings
        acquired_idle (stop st) = (.exited, stop st)) := by
  have hf := foldMark_fields
    (poolKeys ({ { { st with abort_flag := true } with
        idle_workers := st.idle_workers + 1 } with
        pending_shutdown := true } : ForemanState).worker_threads)
    { { { st with abort_flag := true } with
        idle_workers := st.idle_workers + 1 } with
        pending_shutdown := true }
  refine ⟨hf.1, hf.2.1, hf.2.2.1, ?_, ?_⟩
  · intro kv hkv
    have H := mem_foldMark _ _ kv hkv
    by_cases hl : kv.1 ∈ poolKeys st.worker_threads
    · exact H.1 hl
    · exact absurd (mem_poolKeys_of_mem (H.2 hl)) hl
  · intro hashFn ip wl cs ai
    have habort : (stop st).abort_flag = true := hf.1
    simp [run_iteration, habort]

/-! ## C9: post-processor queue backpressure -/

theorem frontendUpdate_upsert (m : FrontendMessage) (l : List FrontendMessage) :
    ∃ x ∈ frontendUpdate m l, x.id = m.id := by
  unfold frontendUpdate
  by_cases h : l.any (fun x => x.id == m.id)
  · rw [if_pos h]
    rcases List.any_eq_true.mp h with ⟨x, hx, hid⟩
    have hid' : x.id = m.id := by simpa using hid
    exact ⟨m, List.mem_map.mpr ⟨x, hx, by simp [hid']⟩, rfl⟩
  · rw [if_neg h]
    exact ⟨m, by simp, rfl⟩

theorem frontendRemoveItem_not_mem (i : String) (l : List FrontendMessage) :
    ∀ x ∈ frontendRemoveItem i l, x.id ≠ i := by
  intro x hx
  have := List.of_mem_filter hx
  simpa using this

/-- C9: `postprocessor_queue_full` returns True and posts the
`pendingTaskHaltedPostProcessorQueueFull` status message exactly when the
processed-task count strictly exceeds the sum of `number_of_workers` over all
WorkerGroups plus one; otherwise it removes that status message and returns
False. -/
theorem c9_postprocessor_backpressure (processed_count : Nat) (st : ForemanState) :
    ((postprocessor_queue_full processed_count st).1 = true ↔
      processed_count > get_total_worker_count st + 1) ∧
    (processed_count > get_total_worker_count st + 1 →
      ∃ x ∈ (postprocessor_queue_full processed_count st).2.frontend_messages,
        x.id = "pendingTaskHaltedPostProcessorQueueFull") ∧
    (¬processed_count > get_total_worker_count st + 1 →
      (postprocessor_queue_full processed_count st).1 = false ∧
      ∀ x ∈ (postprocessor_queue_full processed_count st).2.frontend_messages,
        x.id ≠ "pendingTaskHaltedPostProcessorQueueFull") := by
  by_cases h : processed_count > get_total_worker_count st + 1
  · refine ⟨by simp [postprocessor_queue_full, h], fun _ => ?_, fun hc => absurd h hc⟩
    simpa [postprocessor_queue_full, h] using
      frontendUpdate_upsert
        { id := "pendingTaskHaltedPostProcessorQueueFull", mtype := "status",
          code := "pendingTaskHaltedPostProcessorQueueFull", message := "", timeout := 0 }
        ((({ st with log_lines := st.log_lines ++ ["x"] }) : ForemanState)).frontend_messages
  · refine ⟨by simp [postprocessor_queue_full, h], fun hc => absurd hc h, fun _ => ?_⟩
    refine ⟨by simp [postprocessor_queue_full, h], ?_⟩
    intro x hx
    have hx' : x ∈ frontendRemoveItem "pendingTaskHaltedPostProcessorQueueFull"
        st.frontend_messages := by
      simpa [postprocessor_queue_full, h] using hx
    exact frontendRemoveItem_not_mem _ _ x hx'

/-! ## Concrete states used by the code-bug claims -/

/-- An empty Foreman state: empty pool, queue, stores and logs. -/
def emptyState : ForemanState :=
  { worker_threads := [], idle_workers := 0, abort_flag := false, pending_queue := [],
    pending_shutdown := false, current_config := { settings := [], settings_hash := "" },
    frontend_messages := [], groups := [], last_schedule_run := none, log_lines := [] }

/-- A pool holding one worker under its group-name-derived string id, as
`init_worker_threads` creates them. -/
def c10State : ForemanState :=
  { emptyState with worker_threads := [("MyGroup-0", newWorker "MyGroup-Worker-1" 1)] }

/-- C10 (code bug): on a pool whose keys are the group-name-derived string
worker ids, `get_worker_status` raises ValueError (from `int("MyGroup-0")`)
instead of returning the matching worker's status snapshot: the implicit
totality claim fails on every non-empty reachable pool. -/
theorem c10_get_worker_status_raises :
    get_worker_status "MyGroup-0" c10State = Except.error "ValueError" ∧
    pyInt "MyGroup-0" = none := ⟨rfl, rfl⟩

/-- The daily 09:00 pause schedule of the C3 counterexample. -/
def c3Schedule : EventSchedule :=
  { schedule_time := "09:00", repetition := "daily", schedule_task := "pause",
    schedule_worker_count := 0 }

/-- A worker group carrying the daily 09:00 pause schedule. -/
def c3Group : WorkerGroup :=
  { id := 1, name := "A", number_of_workers := 1, event_schedules := [c3Schedule] }

/-- The reconciled state in which the C3 schedule is evaluated. -/
def c3State : ForemanState := init_worker_threads { emptyState with groups := [c3Group] }

/-- C3 (code bug): evaluating `manage_event_schedules` twice during the one
matching minute (the two 30-second ticks inside 09:00–09:01, both with
`time_now = "09:00"`) executes the scheduled pause action twice — once per
tick — though the claim, the spec and the method's own docstring require at
most one execution per matching minute. `last_schedule_run` is written by
`run_task` but never read, so no dedupe happens. -/
theorem c3_schedule_double_fire :
    ((manage_event_schedules "09:00" 0 (manage_event_schedules "09:00" 0 c3State)).log_lines.count
      "Running scheduled event - Pause all worker threads") = 2 ∧
    ((manage_event_schedules "09:00" 0 c3State).log_lines.count
      "Running scheduled event - Pause all worker threads") = 1 := by decide

/-- The worker of the C5 counterexample: alive and idle but paused, so it
reports it cannot accept work. -/
def c5Worker : Worker :=
  { name := "A-Worker-1", workerGroupId := 1, idle := true, alive := true, paused := true,
    redundant := .notRedundant }

/-- A recorded configuration snapshot with hash `"h"`. -/
def hConfig : CurrentConfig := { settings := [], settings_hash := "h" }

/-- A state with one claimed idle signal, one pending task and no worker
willing to accept it. -/
def c5State : ForemanState :=
  { emptyState with
    worker_threads := [("A-0", c5Worker)], idle_workers := 1,
    pending_queue := [PTask.mk 1], current_config := hConfig }

/-- C5 (code bug): in a dispatch iteration that obtains a task but finds no
worker willing to accept it, the `for`/`else` branch is `pass`: the loop
continues without crashing, but the task has left the pending queue and is
never re-queued — it is silently discarded, where the claim requires
re-queuing. -/
theorem c5_task_dropped :
    (run_iteration (fun _ => "h") false true [] true c5State).1 = .continued ∧
    (run_iteration (fun _ => "h") false true [] true c5State).2.pending_queue = [] ∧
    (run_iteration (fun _ => "h") false true [] true c5State).2.worker_threads =
      c5State.worker_threads := by decide

/-! ## C8: idle acquired, queue empty or shut down -/

/-- C8: in a dispatch iteration where the idle-worker semaphore is acquired
but the pending-task source times out empty, the semaphore is released back
and no task is consumed — the state is returned unchanged and the loop
continues; when the pending source reports permanent shutdown during the get,
the loop exits. -/
theorem c8_empty_timeout_release (hashFn : LibrarySettings → String)
    (current_settings : LibrarySettings) (st : ForemanState)
    (hab : st.abort_flag = false)
    (hhash : hashFn current_settings = st.current_config.settings_hash)
    (hidle : 0 < st.idle_workers) :
    (st.pending_shutdown = false → st.pending_queue = [] →
      run_iteration hashFn false true current_settings true st = (.continued, st)) ∧
    (st.pending_shutdown = true →
      (run_iteration hashFn false true current_settings true st).1 = .exited) := by
  have hval : validate_worker_config hashFn false true current_settings st = (true, st) := by
    simp [validate_worker_config, configuration_changed, hhash]
  constructor
  · intro hsd hq
    have hsub : st.idle_workers - 1 + 1 = st.idle_workers := Nat.succ_pred_eq_of_pos hidle
    simp only [run_iteration, hab, hval, Bool.not_true, if_neg (by simp : ¬(false : Bool) = true)]
    simp only [hab, hsd, hq, hsub, Bool.false_eq_true, if_false]
    refine Prod.ext rfl ?_
    apply ForemanState.ext <;> simp [hab, hsd, hq]
  · intro hsd
    simp only [run_iteration, hab, hval]
    simp [hab, hsd]

/-- A state on which the C8 theorem's hypotheses hold concretely. -/
def c8State : ForemanState :=
  { emptyState with idle_workers := 1, current_config := hConfig }

/-- Witness for C8 at a concrete input. -/
theorem c8_witness :
    run_iteration (fun _ => "h") false true [] true c8State = (.continued, c8State) :=
  (c8_empty_timeout_release (fun _ => "h") [] c8State (by decide) (by decide)
    (by decide)).1 (by decide) (by decide)

/-! ## C4: the configuration-change gate -/

theorem save_current_config_cc (s : LibrarySettings) (h : String) (hne : h ≠ "")
    (st : ForemanState) :
    ((save_current_config (some s) (some h) st).current_config.settings_hash = h) ∧
    (s ≠ [] → (save_current_config (some s) (some h) st).current_config.settings = s) ∧
    (s = [] →
      (save_current_config (some s) (some h) st).current_config.settings =
        st.current_config.settings) := by
  by_cases hs : s = [] <;> simp [save_current_config, ForemanState.log, hs, hne]

theorem validate_stable (hashFn : LibrarySettings → String) (cur : LibrarySettings)
    (st : ForemanState) (hEq : hashFn cur = st.current_config.settings_hash) :
    validate_worker_config hashFn false true cur st = (true, st) := by
  simp [validate_worker_config, configuration_changed, hEq]

theorem validate_changed (hashFn : LibrarySettings → String) (cur : LibrarySettings)
    (st : ForemanState) (hNe : hashFn cur ≠ st.current_config.settings_hash) :
    validate_worker_config hashFn false true cur st =
      (false,
        { save_current_config (some cur) (some (hashFn cur)) st with
          frontend_messages :=
            frontendPut pluginSettingsMessage
              (save_current_config (some cur) (some (hashFn cur)) st).frontend_messages }) := by
  simp [validate_worker_config, configuration_changed, hNe]

/-- C4 (amended): `configuration_changed` returns False and leaves
`current_config` unchanged exactly when the hash of the current configuration
equals the stored `settings_hash`; otherwise it records the new hash — and the
new settings whenever the new configuration is non-empty (Python-truthy) — and
returns True. Consequently, with a stable configuration two consecutive
`validate_worker_config` calls both pass, and after a mutation of the
configuration exactly the next call fails and raises the user-facing warning,
while the call after that passes again. -/
theorem c4_config_gate (hashFn : LibrarySettings → String)
    (cur cur2 : LibrarySettings) (st : ForemanState)
    (hne : hashFn cur ≠ "") (hne2 : hashFn cur2 ≠ "") :
    (((configuration_changed hashFn cur st).1 = false ∧
        (configuration_changed hashFn cur st).2.current_config = st.current_config) ↔
      hashFn cur = st.current_config.settings_hash) ∧
    (hashFn cur ≠ st.current_config.settings_hash →
      (configuration_changed hashFn cur st).1 = true ∧
      (configuration_changed hashFn cur st).2.current_config.settings_hash = hashFn cur ∧
      (cur ≠ [] → (configuration_changed hashFn cur st).2.current_config.settings = cur)) ∧
    (hashFn cur = st.current_config.settings_hash →
      (validate_worker_config hashFn false true cur st).1 = true ∧
      (validate_worker_config hashFn false true cur
        (validate_worker_config hashFn false true cur st).2).1 = true) ∧
    (hashFn cur2 ≠ st.current_config.settings_hash →
      (validate_worker_config hashFn false true cur2 st).1 = false ∧
      pluginSettingsMessage ∈
        (validate_worker_config hashFn false true cur2 st).2.frontend_messages ∧
      (validate_worker_config hashFn false true cur2
        (validate_worker_config hashFn false true cur2 st).2).1 = true) := by
  have hsave := save_current_config_cc cur (hashFn cur) hne st
  have hsave2 := save_current_config_cc cur2 (hashFn cur2) hne2 st
  refine ⟨?_, ?_, ?_, ?_⟩
  · by_cases hEq : hashFn cur = st.current_config.settings_hash
    · simp [configuration_changed, hEq]
    · simp only [configuration_changed, if_neg hEq]
      constructor
      · rintro ⟨h1, -⟩
        exact absurd h1 (by simp)
      · intro h
        exact absurd h hEq
  · intro hNe
    refine ⟨by simp [configuration_changed, hNe], ?_, ?_⟩
    · simpa [configuration_changed, hNe] using hsave.1
    · intro hcur
      simpa [configuration_changed, hNe] using hsave.2.1 hcur
  · intro hEq
    rw [validate_stable hashFn cur st hEq]
    exact ⟨rfl, by rw [validate_stable hashFn cur st hEq]⟩
  · intro hNe
    rw [validate_changed hashFn cur2 st hNe]
    refine ⟨rfl, ?_, ?_⟩
    · simp [frontendPut]
    · have hh : hashFn cur2 =
          ({ save_current_config (some cur2) (some (hashFn cur2)) st with
            frontend_messages :=
              frontendPut pluginSettingsMessage
                (save_current_config (some cur2) (some (hashFn cur2)) st).frontend_messages }
            : ForemanState).current_config.settings_hash := by
        simpa using hsave2.1.symm
      rw [validate_stable hashFn cur2 _ hh]

/-- The hash function of the C4 counterexample: a fixed injective-on-lengths
stand-in for md5 of the canonical JSON serialization. -/
def c4Hash : LibrarySettings → String := fun s => "h" ++ natToStr s.length

/-- A state whose recorded configuration is the non-empty snapshot
`[(1, "x")]` with hash `"h1"`. -/
def c4State : ForemanState :=
  { emptyState with current_config := { settings := [(1, "x")], settings_hash := "h1" } }

/-- C4 counterexample: when the library configuration becomes empty (every
library removed), `configuration_changed` returns True and records the new
hash, but — because Python `if settings:` skips a falsy value — the new
(empty) settings snapshot is NOT recorded: `current_config.settings` keeps the
old value, contradicting the claim that the new settings and hash are both
recorded whenever the hash differs. -/
theorem c4_settings_not_recorded :
    (configuration_changed c4Hash [] c4State).1 = true ∧
    (configuration_changed c4Hash [] c4State).2.current_config.settings = [(1, "x")] ∧
    (configuration_changed c4Hash [] c4State).2.current_config.settings_hash = "h0" := by
  decide

/-- Witness for C4 at a concrete input: with the stable configuration
`[(2, "y")]` (hash `"h1"`) validation passes. -/
theorem c4_witness :
    (validate_worker_config c4Hash false true [(2, "y")] c4State).1 = true :=
  ((c4_config_gate c4Hash [(2, "y")] [] c4State (by decide) (by decide)).2.2.1
    (by decide)).1

/-! ## Derivation relation: how pool entries evolve through reconciliation -/

/-- How a single worker record can evolve under the Foreman's operations:
status flags, identity and group are preserved, and the redundancy signal is
either untouched, set to the worker's own idle-derived value (immediate when
idle, pending when busy), or set to pending. -/
def WDer (w w2 : Worker) : Prop :=
  w2.idle = w.idle ∧ w2.alive = w.alive ∧ w2.paused = w.paused ∧
  w2.name = w.name ∧ w2.workerGroupId = w.workerGroupId ∧
  (w2.redundant = w.redundant ∨
    w2.redundant = (if w2.idle then Redundancy.immediate else Redundancy.pending) ∨
    w2.redundant = Redundancy.pending)

theorem WDer_refl (w : Worker) : WDer w w :=
  ⟨Eq.refl _, Eq.refl _, Eq.refl _, Eq.refl _, Eq.refl _, Or.inl (Eq.refl _)⟩

theorem WDer_trans {w w2 w3 : Worker} (h1 : WDer w w2) (h2 : WDer w2 w3) : WDer w w3 := by
  obtain ⟨i1, a1, p1, n1, g1, r1⟩ := h1
  obtain ⟨i2, a2, p2, n2, g2, r2⟩ := h2
  refine ⟨i2.trans i1, a2.trans a1, p2.trans p1, n2.trans n1, g2.trans g1, ?_⟩
  rcases r2 with h | h | h
  · rw [h, i2]; exact r1
  · exact Or.inr (Or.inl h)
  · exact Or.inr (Or.inr h)

theorem WDer.set_redundant_own (w : Worker) : WDer w (w.set_redundant w.idle) := by
  refine ⟨rfl, rfl, rfl, rfl, rfl, Or.inr (Or.inl ?_)⟩
  simp [Worker.set_redundant]

theorem WDer.set_redundant_false (w : Worker) : WDer w (w.set_redundant false) :=
  ⟨rfl, rfl, rfl, rfl, rfl, Or.inr (Or.inr (by simp [Worker.set_redundant]))⟩

/-- How the whole pool map can evolve: every surviving entry is derived from
the entry previously at its key, and a fresh entry (idle, alive) appears only
at a key that was previously absent or held a dead worker; a key can vanish
only when it was absent or dead before. -/
def Der (p q : Pool) : Prop :=
  (∀ k w2, lookupW q k = some w2 →
    (∃ w, lookupW p k = some w ∧ WDer w w2) ∨
    (w2.idle = true ∧ w2.alive = true ∧
      (lookupW p k = none ∨ ∃ w, lookupW p k = some w ∧ w.alive = false))) ∧
  (∀ k, lookupW q k = none →
    lookupW p k = none ∨ ∃ w, lookupW p k = some w ∧ w.alive = false)

theorem Der_refl (p : Pool) : Der p p :=
  ⟨fun _ w2 h => Or.inl ⟨w2, h, WDer_refl w2⟩, fun _ h => Or.inl h⟩

theorem Der_trans {p q r : Pool} (h1 : Der p q) (h2 : Der q r) : Der p r := by
  constructor
  · intro k w3 h3
    rcases h2.1 k w3 h3 with ⟨w2, hw2, hd⟩ | ⟨hi, ha, habs⟩
    · rcases h1.1 k w2 hw2 with ⟨w, hw, hd'⟩ | ⟨hi', ha', habs'⟩
      · exact Or.inl ⟨w, hw, WDer_trans hd' hd⟩
      · refine Or.inr ⟨?_, ?_, habs'⟩
        · rw [hd.1, hi']
        · rw [hd.2.1, ha']
    · refine Or.inr ⟨hi, ha, ?_⟩
      rcases habs with hnone | ⟨w2, hw2, hdead⟩
      · exact h1.2 k hnone
      · rcases h1.1 k w2 hw2 with ⟨w, hw, hd⟩ | ⟨hi', ha', _⟩
        · exact Or.inr ⟨w, hw, hd.2.1 ▸ hdead⟩
        · rw [ha'] at hdead; cases hdead
  · intro k hk
    rcases h2.2 k hk with hnone | ⟨w2, hw2, hdead⟩
    · exact h1.2 k hnone
    · rcases h1.1 k w2 hw2 with ⟨w, hw, hd⟩ | ⟨_, ha', _⟩
      · exact Or.inr ⟨w, hw, hd.2.1 ▸ hdead⟩
      · rw [ha'] at hdead; cases hdead

theorem lookupW_eq_none_iff (p : Pool) (k : String) :
    lookupW p k = none ↔ k ∉ poolKeys p := by
  induction p with
  | nil => simp [lookupW, poolKeys]
  | cons kv p ih =>
    rw [lookupW_cons]
    by_cases h : kv.1 = k
    · simp [poolKeys, h]
    · rw [if_neg h, ih]
      simp only [poolKeys, List.map_cons, List.mem_cons, not_or]
      constructor
      · intro hnk
        exact ⟨fun he => h he.symm, hnk⟩
      · intro hns
        exact hns.2

theorem Der_prune (p : Pool) (hnd : (poolKeys p).Nodup) :
    Der p (p.filter (fun kv => kv.2.is_alive)) := by
  constructor
  · intro k w2 h2
    have hmem : (k, w2) ∈ p.filter (fun kv => kv.2.is_alive) := mem_of_lookupW h2
    have hmem2 : (k, w2) ∈ p := List.mem_of_mem_filter hmem
    exact Or.inl ⟨w2, lookupW_of_mem hnd hmem2, WDer_refl w2⟩
  · intro k hk
    cases hp : lookupW p k with
    | none => exact Or.inl rfl
    | some w =>
      refine Or.inr ⟨w, rfl, ?_⟩
      by_contra halive
      have halive2 : w.is_alive = true := by
        simp only [Worker.is_alive]
        cases hA : w.alive
        · exact absurd hA halive
        · rfl
      have hmem : (k, w) ∈ p := mem_of_lookupW hp
      have hmemf : (k, w) ∈ p.filter (fun kv => kv.2.is_alive) :=
        List.mem_filter.mpr ⟨hmem, halive2⟩
      have hkk : k ∈ poolKeys (p.filter (fun kv => kv.2.is_alive)) :=
        mem_poolKeys_of_mem hmemf
      exact ((lookupW_eq_none_iff _ _).mp hk) hkk

theorem Der_mark (q : Pool) (k0 : String) (b : Bool)
    (hb : ∀ w, lookupW q k0 = some w → b = w.idle ∨ b = false) :
    Der q (updateW q k0 (fun x => x.set_redundant b)) := by
  constructor
  · intro k w2 h2
    rw [lookupW_updateW] at h2
    by_cases hk : k = k0
    · subst hk
      rw [if_pos rfl] at h2
      cases hq : lookupW q k with
      | none => rw [hq] at h2; cases h2
      | some w =>
        rw [hq] at h2
        simp only [Option.map_some'] at h2
        obtain rfl := Option.some.inj h2
        refine Or.inl ⟨w, rfl, ?_⟩
        rcases hb w hq with rfl | rfl
        · exact WDer.set_redundant_own w
        · exact WDer.set_redundant_false w
    · rw [if_neg hk] at h2
      exact Or.inl ⟨w2, h2, WDer_refl w2⟩
  · intro k hk
    rw [lookupW_updateW] at hk
    by_cases hk0 : k = k0
    · subst hk0
      rw [if_pos rfl] at hk
      cases hq : lookupW q k with
      | none => exact Or.inl rfl
      | some w => rw [hq] at hk; simp at hk
    · rw [if_neg hk0] at hk
      exact Or.inl hk

theorem Der_append_fresh (q : Pool) (k0 nm : String) (gid : Nat) :
    Der q (q ++ [(k0, newWorker nm gid)]) := by
  constructor
  · intro k w2 h2
    rw [lookupW_append_single] at h2
    cases hq : lookupW q k with
    | some w =>
      rw [hq] at h2
      exact Or.inl ⟨w, rfl, (Option.some.inj h2) ▸ WDer_refl w⟩
    | none =>
      rw [hq] at h2
      by_cases hk : k0 = k
      · rw [if_pos hk] at h2
        obtain rfl := Option.some.inj h2
        exact Or.inr ⟨rfl, rfl, Or.inl rfl⟩
      · rw [if_neg hk] at h2; cases h2
  · intro k hk
    rw [lookupW_append_single] at hk
    cases hq : lookupW q k with
    | some w => rw [hq] at hk; cases hk
    | none => exact Or.inl rfl

theorem lookupW_staleSweep (ids : List Nat) (names : List String) (p : Pool) (k : String) :
    lookupW (staleSweep ids names p) k =
      (lookupW p k).map (fun w =>
        if w.workerGroupId ∉ ids ∨ w.name ∉ names then w.set_redundant w.idle else w) := by
  induction p with
  | nil => rfl
  | cons kv p ih =>
    by_cases hcond : kv.2.workerGroupId ∉ ids ∨ kv.2.name ∉ names <;>
      by_cases hk : kv.1 = k <;>
      simp only [staleSweep, List.map_cons, lookupW_cons, if_pos, if_neg, hcond, hk] at ih ⊢ <;>
      simp_all [staleSweep, lookupW_cons]

theorem Der_sweep (q : Pool) (ids : List Nat) (names : List String) :
    Der q (staleSweep ids names q) := by
  constructor
  · intro k w2 h2
    rw [lookupW_staleSweep] at h2
    cases hq : lookupW q k with
    | none => rw [hq] at h2; cases h2
    | some w =>
      rw [hq] at h2
      simp only [Option.map_some'] at h2
      obtain rfl := Option.some.inj h2
      refine Or.inl ⟨w, rfl, ?_⟩
      by_cases hcond : w.workerGroupId ∉ ids ∨ w.name ∉ names
      · rw [if_pos hcond]
        exact WDer.set_redundant_own w
      · rw [if_neg hcond]
        exact WDer_refl w
  · intro k hk
    rw [lookupW_staleSweep] at hk
    cases hq : lookupW q k with
    | none => exact Or.inl rfl
    | some w => rw [hq] at hk; simp at hk

/-- A generic preservation principle for left folds. -/
theorem foldl_preserve {α β : Type _} {P : α → Prop} {f : α → β → α}
    (hf : ∀ a b, P a → P (f a b)) : ∀ (l : List β) (a), P a → P (l.foldl f a) := by
  intro l
  induction l with
  | nil => intro a h; exact h
  | cons b l ih => intro a h; exact ih _ (hf a b h)

/-! ## Composition of the derivation relation through init_worker_threads -/

theorem Der_createStep (g : WorkerGroup) (base : Pool) (a : ForemanState × List String)
    (i : Nat) (h : Der base a.1.worker_threads) :
    Der base (createWorkersStep g a i).1.worker_threads := by
  unfold createWorkersStep
  by_cases hc : containsK a.1.worker_threads (mkWorkerId g.name i) = true
  · simpa [hc] using h
  · simp only [hc, Bool.false_eq_true, if_false]
    exact Der_trans h (Der_append_fresh _ _ _ _)

theorem Der_removeStep (g : WorkerGroup) (base : Pool) (s : ForemanState) (i : Nat)
    (h : Der base s.worker_threads) :
    Der base (removeWorkersStep g s i).worker_threads := by
  unfold removeWorkersStep
  cases hq : lookupW s.worker_threads (mkWorkerId g.name i) with
  | none => simpa [hq] using h
  | some w =>
    simp only [hq]
    refine Der_trans h (Der_mark _ _ _ ?_)
    intro w2 hw2
    rw [hq] at hw2
    obtain rfl := Option.some.inj hw2
    exact Or.inl rfl

theorem Der_groupStep (base : Pool) (a : ForemanState × List Nat × List String)
    (g : WorkerGroup) (h : Der base a.1.worker_threads) :
    Der base (initGroupStep a g).1.worker_threads := by
  unfold initGroupStep
  have h1 : Der base ((List.range g.number_of_workers).foldl (createWorkersStep g)
      (a.1, a.2.2)).1.worker_threads :=
    @foldl_preserve _ _ (fun x => Der base x.1.worker_threads) _
      (fun x i hx => Der_createStep g base x i hx) _ _ h
  exact @foldl_preserve _ _ (fun s => Der base s.worker_threads) _
    (fun s i hs => Der_removeStep g base s i hs) _ _ h1

theorem init_Der (st : ForemanState) (hnd : (poolKeys st.worker_threads).Nodup) :
    Der st.worker_threads (init_worker_threads st).worker_threads := by
  have h0 : Der st.worker_threads (prune_dead_threads st).worker_threads :=
    Der_prune st.worker_threads hnd
  have h1 : Der st.worker_threads
      ((prune_dead_threads st).groups.foldl initGroupStep
        (prune_dead_threads st, ([], []))).1.worker_threads :=
    @foldl_preserve _ _ (fun a => Der st.worker_threads a.1.worker_threads) _
      (fun a g ha => Der_groupStep _ a g ha) _ _ h0
  exact Der_trans h1 (Der_sweep _ _ _)

/-! ## Key nodup preservation through init_worker_threads -/

theorem poolKeys_append (p : Pool) (x : String × Worker) :
    poolKeys (p ++ [x]) = poolKeys p ++ [x.1] := by
  simp [poolKeys]

theorem poolKeys_staleSweep (ids : List Nat) (names : List String) (p : Pool) :
    poolKeys (staleSweep ids names p) = poolKeys p := by
  induction p with
  | nil => rfl
  | cons kv p ih =>
    by_cases hcond : kv.2.workerGroupId ∉ ids ∨ kv.2.name ∉ names <;>
      simp [staleSweep, poolKeys, hcond] at ih ⊢ <;> exact ih

theorem nodup_prune (st : ForemanState) (hnd : (poolKeys st.worker_threads).Nodup) :
    (poolKeys (prune_dead_threads st).worker_threads).Nodup := by
  refine List.Nodup.sublist ?_ hnd
  exact List.Sublist.map _ (List.filter_sublist _)

theorem nodup_createStep (g : WorkerGroup) (a : ForemanState × List String) (i : Nat)
    (h : (poolKeys a.1.worker_threads).Nodup) :
    (poolKeys (createWorkersStep g a i).1.worker_threads).Nodup := by
  unfold createWorkersStep
  by_cases hc : containsK a.1.worker_threads (mkWorkerId g.name i) = true
  · simpa [hc] using h
  · simp only [hc, Bool.false_eq_true, if_false, start_worker_thread, poolKeys_append]
    rw [List.nodup_append]
    refine ⟨h, List.nodup_singleton _, ?_⟩
    intro x hx hx1
    have hk : mkWorkerId g.name i ∉ poolKeys a.1.worker_threads := by
      rw [← lookupW_eq_none_iff]
      simp only [containsK, Option.isSome] at hc
      cases hl : lookupW a.1.worker_threads (mkWorkerId g.name i)
      · rfl
      · rw [hl] at hc; simp at hc
    rcases List.mem_singleton.mp hx1 with rfl
    exact hk hx

theorem nodup_removeStep (g : WorkerGroup) (s : ForemanState) (i : Nat)
    (h : (poolKeys s.worker_threads).Nodup) :
    (poolKeys (removeWorkersStep g s i).worker_threads).Nodup := by
  unfold removeWorkersStep
  cases hq : lookupW s.worker_threads (mkWorkerId g.name i) with
  | none => simpa [hq] using h
  | some w =>
    simp only [hq, mark_worker_thread_as_redundant]
    rw [poolKeys_updateW]
    exact h

theorem nodup_groupStep (a : ForemanState × List Nat × List String) (g : WorkerGroup)
    (h : (poolKeys a.1.worker_threads).Nodup) :
    (poolKeys (initGroupStep a g).1.worker_threads).Nodup := by
  unfold initGroupStep
  have h1 := @foldl_preserve _ _ (fun x => (poolKeys x.1.worker_threads).Nodup) _
    (fun x i hx => nodup_createStep g x i hx) (List.range g.number_of_workers)
    (a.1, a.2.2) h
  exact @foldl_preserve _ _ (fun s => (poolKeys s.worker_threads).Nodup) _
    (fun s i hs => nodup_removeStep g s i hs) _ _ h1

theorem init_nodup (st : ForemanState) (hnd : (poolKeys st.worker_threads).Nodup) :
    (poolKeys (init_worker_threads st).worker_threads).Nodup := by
  have h1 := @foldl_preserve _ _
    (fun a : ForemanState × List Nat × List String =>
      (poolKeys a.1.worker_threads).Nodup) _
    (fun a g ha => nodup_groupStep a g ha) (prune_dead_threads st).groups
    (prune_dead_threads st, ([], [])) (nodup_prune st hnd)
  show (poolKeys (staleSweep _ _ _)).Nodup
  rw [poolKeys_staleSweep]
  exact h1

/-! ## C2: no kill in flight -/

/-- A pool satisfies the no-immediate-while-running property when every
handle marked redundant-immediate is idle. -/
def noImmediateRunning (p : Pool) : Bool :=
  p.all (fun kv => !(kv.2.redundant == Redundancy.immediate) || kv.2.idle)

theorem noImmediateRunning_iff (p : Pool) :
    noImmediateRunning p = true ↔
      ∀ kv ∈ p, kv.2.redundant = Redundancy.immediate → kv.2.idle = true := by
  simp only [noImmediateRunning, List.all_eq_true, Bool.or_eq_true, Bool.not_eq_true',
    beq_eq_false_iff_ne]
  constructor
  · intro h kv hm hr
    rcases h kv hm with hne | hi
    · exact absurd hr hne
    · exact hi
  · intro h kv hm
    by_cases hr : kv.2.redundant = Redundancy.immediate
    · exact Or.inr (h kv hm hr)
    · exact Or.inl hr

/-- C2: no orchestrator operation terminates a running worker before its task
completes. Starting from a state where no busy handle is marked
redundant-immediate, this still holds after pool reconciliation
(`init_worker_threads`, which marks immediate exactly when the handle is idle
at the moment of marking), after `terminate_worker_thread` (which always marks
pending), and after `stop` (which always marks pending); moreover a handle
that is alive and running is never marked redundant-immediate by
reconciliation. -/
theorem c2_no_kill_in_flight (st : ForemanState)
    (hnir : noImmediateRunning st.worker_threads = true)
    (hnd : (poolKeys st.worker_threads).Nodup) :
    noImmediateRunning (init_worker_threads st).worker_threads = true ∧
    (∀ worker_id,
      noImmediateRunning (terminate_worker_thread worker_id st).2.worker_threads = true) ∧
    noImmediateRunning (stop st).worker_threads = true ∧
    (∀ k w w2, lookupW st.worker_threads k = some w → w.alive = true → w.idle = false →
      lookupW (init_worker_threads st).worker_threads k = some w2 →
      w2.redundant ≠ Redundancy.immediate) := by
  rw [noImmediateRunning_iff] at hnir
  refine ⟨?_, ?_, ?_, ?_⟩
  · rw [noImmediateRunning_iff]
    intro kv hm hr
    have hl : lookupW (init_worker_threads st).worker_threads kv.1 = some kv.2 :=
      lookupW_of_mem (init_nodup st hnd) hm
    rcases (init_Der st hnd).1 kv.1 kv.2 hl with ⟨w, hw, hd⟩ | ⟨hi, _, _⟩
    · rcases hd.2.2.2.2.2 with hred | hred | hred
      · have hwimm : w.redundant = Redundancy.immediate := hred ▸ hr
        have hwi : w.idle = true := hnir (kv.1, w) (mem_of_lookupW hw) hwimm
        rw [hd.1, hwi]
      · rw [hred] at hr
        cases hkvidle : kv.2.idle
        · rw [hkvidle] at hr; simp at hr
        · rfl
      · rw [hred] at hr; cases hr
    · exact hi
  · intro worker_id
    rw [noImmediateRunning_iff]
    intro kv hm hr
    simp only [terminate_worker_thread] at hm
    cases hq : lookupW (st.log ("Asked to terminate Worker ID " ++ worker_id)).worker_threads
        worker_id with
    | none =>
      rw [hq] at hm
      exact hnir kv hm hr
    | some w =>
      rw [hq] at hm
      simp only [mark_worker_thread_as_redundant] at hm
      rcases mem_updateW.mp hm with ⟨kv0, hkv0, heq⟩
      by_cases h0 : kv0.1 = worker_id
      · rw [if_pos h0] at heq
        rw [heq] at hr
        simp [Worker.set_redundant] at hr
      · rw [if_neg h0] at heq
        exact hnir kv (heq ▸ hkv0) hr
  · rw [noImmediateRunning_iff]
    intro kv hm hr
    have H := mem_foldMark _ _ kv hm
    by_cases hl : kv.1 ∈ poolKeys
        ({ { { st with abort_flag := true } with
            idle_workers := st.idle_workers + 1 } with
            pending_shutdown := true } : ForemanState).worker_threads
    · rw [H.1 hl] at hr; cases hr
    · exact absurd (mem_poolKeys_of_mem (H.2 hl)) hl
  · intro k w w2 hw halive hidle hw2
    intro hr
    rcases (init_Der st hnd).1 k w2 hw2 with ⟨w3, hw3, hd⟩ | ⟨hi, _, habs⟩
    · rw [hw] at hw3
      obtain rfl := Option.some.inj hw3
      rcases hd.2.2.2.2.2 with hred | hred | hred
      · have hwi : w.idle = true := hnir (k, w) (mem_of_lookupW hw) (hred ▸ hr)
        rw [hwi] at hidle; cases hidle
      · rw [hred] at hr
        rw [hd.1, hidle] at hr
        cases hr
      · rw [hred] at hr; cases hr
    · rcases habs with hnone | ⟨w3, hw3, hdead⟩
      · rw [hw] at hnone; cases hnone
      · rw [hw] at hw3
        obtain rfl := Option.some.inj hw3
        rw [halive] at hdead; cases hdead

/-- Witness for C2 at a concrete input. -/
theorem c2_witness :
    noImmediateRunning (init_worker_threads c10State).worker_threads = true :=
  (c2_no_kill_in_flight c10State (by decide) (by decide)).1

/-! ## C6: idempotent reconciliation — the fixpoint direction -/

/-- A worker carries exactly the redundancy value that marking it (immediate
when idle) would set. -/
def workerMarkSettled (w : Worker) : Prop :=
  w.redundant = (if w.idle then Redundancy.immediate else Redundancy.pending)

theorem workerMarkSettled_set_own (w : Worker) :
    workerMarkSettled (w.set_redundant w.idle) := by
  cases h : w.idle <;> simp [Worker.set_redundant, workerMarkSettled, h]

theorem set_redundant_own_eq_self {w : Worker} (h : workerMarkSettled w) :
    w.set_redundant w.idle = w := by
  unfold workerMarkSettled at h
  cases w
  simp_all [Worker.set_redundant]

theorem map_id_of_mem {α : Type _} {l : List α} {f : α → α} (h : ∀ x ∈ l, f x = x) :
    l.map f = l := by
  induction l with
  | nil => rfl
  | cons x l ih =>
    rw [List.map_cons, h x (List.mem_cons_self x l), ih (fun y hy => h y (List.mem_cons_of_mem x hy))]

theorem updateW_eq_self {p : Pool} {k : String} {f : Worker → Worker}
    (hnd : (poolKeys p).Nodup) (hf : ∀ w, lookupW p k = some w → f w = w) :
    updateW p k f = p := by
  apply map_id_of_mem
  intro kv hkv
  by_cases hk : kv.1 = k
  · have hl : lookupW p k = some kv.2 := hk ▸ lookupW_of_mem hnd hkv
    rw [if_pos hk, hf kv.2 hl]
  · rw [if_neg hk]

/-- The group-id list accumulated by `init_worker_threads`. -/
def allGroupIds (groups : List WorkerGroup) : List Nat := groups.map (fun g => g.id)

/-- The display names that `init_worker_threads` expects for one group. -/
def groupNames (g : WorkerGroup) : List String :=
  (List.range g.number_of_workers).map (mkWorkerName g.name)

/-- The display-name list accumulated by `init_worker_threads`. -/
def expectedNames (groups : List WorkerGroup) : List String :=
  groups.foldl (fun ns g => ns ++ groupNames g) []

theorem createFold_names (g : WorkerGroup) :
    ∀ (l : List Nat) (a : ForemanState × List String),
      (l.foldl (createWorkersStep g) a).2 = a.2 ++ l.map (mkWorkerName g.name) := by
  intro l
  induction l with
  | nil => intro a; simp
  | cons i l ih =>
    intro a
    have h2 : (createWorkersStep g a i).2 = a.2 ++ [mkWorkerName g.name i] := by
      simp only [createWorkersStep]
      split
      · rfl
      · rfl
    rw [List.foldl_cons, ih (createWorkersStep g a i), h2, List.map_cons, List.append_assoc]
    rfl

theorem expectedNames_shift :
    ∀ (gs : List WorkerGroup) (ns0 : List String),
      gs.foldl (fun ns g => ns ++ groupNames g) ns0 = ns0 ++ expectedNames gs := by
  intro gs
  induction gs with
  | nil => intro ns0; simp [expectedNames]
  | cons g gs ih =>
    intro ns0
    rw [List.foldl_cons, ih (ns0 ++ groupNames g)]
    have hx : expectedNames (g :: gs) = groupNames g ++ expectedNames gs := by
      show (g :: gs).foldl (fun ns g => ns ++ groupNames g) [] = _
      rw [List.foldl_cons, ih ([] ++ groupNames g)]
      simp
    rw [hx, List.append_assoc]

theorem groupsFold_components :
    ∀ (gs : List WorkerGroup) (a : ForemanState × List Nat × List String),
      (gs.foldl initGroupStep a).2.1 = a.2.1 ++ allGroupIds gs ∧
      (gs.foldl initGroupStep a).2.2 = a.2.2 ++ expectedNames gs := by
  intro gs
  induction gs with
  | nil => intro a; simp [allGroupIds, expectedNames]
  | cons g gs ih =>
    intro a
    have hstep1 : (initGroupStep a g).2.1 = a.2.1 ++ [g.id] := by
      unfold initGroupStep
      rfl
    have hstep2 : (initGroupStep a g).2.2 = a.2.2 ++ groupNames g := by
      unfold initGroupStep
      simp only
      rw [createFold_names]
      rfl
    rw [List.foldl_cons]
    refine ⟨?_, ?_⟩
    · rw [(ih (initGroupStep a g)).1, hstep1]
      simp [allGroupIds, List.append_assoc]
    · rw [(ih (initGroupStep a g)).2, hstep2]
      unfold expectedNames
      rw [List.foldl_cons, expectedNames_shift gs ([] ++ groupNames g)]
      simp [List.append_assoc, expectedNames]

/-- Per-group settledness: every index below the configured count has a handle
in the pool, and every handle at an index in `[count, 12)` already carries the
redundancy value a marking pass would set. -/
def groupSettled (g : WorkerGroup) (p : Pool) : Prop :=
  (∀ i, i < g.number_of_workers → containsK p (mkWorkerId g.name i) = true) ∧
  (∀ i, g.number_of_workers ≤ i → i < 12 →
    ∀ w, lookupW p (mkWorkerId g.name i) = some w → workerMarkSettled w)

/-- Sweep settledness: every handle the stale sweep would mark already carries
the redundancy value the sweep would set. -/
def sweepSettled (ids : List Nat) (names : List String) (p : Pool) : Prop :=
  ∀ kv ∈ p, (kv.2.workerGroupId ∉ ids ∨ kv.2.name ∉ names) → workerMarkSettled kv.2

/-- Every pool entry is alive. -/
def allAlive (p : Pool) : Prop := ∀ kv ∈ p, kv.2.alive = true

theorem prune_id (st : ForemanState) (ha : allAlive st.worker_threads) :
    prune_dead_threads st = st := by
  unfold prune_dead_threads
  have : st.worker_threads.filter (fun kv => kv.2.is_alive) = st.worker_threads := by
    apply List.filter_eq_self.mpr
    intro kv hkv
    simp [Worker.is_alive, ha kv hkv]
  rw [this]

theorem createFold_state_id (g : WorkerGroup) :
    ∀ (l : List Nat) (a : ForemanState × List String),
      (∀ i ∈ l, containsK a.1.worker_threads (mkWorkerId g.name i) = true) →
      (l.foldl (createWorkersStep g) a).1 = a.1 := by
  intro l
  induction l with
  | nil => intro a _; rfl
  | cons i l ih =>
    intro a h
    have hstep : (createWorkersStep g a i).1 = a.1 := by
      simp only [createWorkersStep]
      rw [if_pos (h i (List.mem_cons_self i l))]
    have hstep2 : (createWorkersStep g a i).2 = a.2 ++ [mkWorkerName g.name i] := by
      simp only [createWorkersStep]
      split
      · rfl
      · rfl
    rw [List.foldl_cons]
    rw [show createWorkersStep g a i = (a.1, a.2 ++ [mkWorkerName g.name i]) from
      Prod.ext hstep hstep2]
    exact ih (a.1, a.2 ++ [mkWorkerName g.name i])
      (fun j hj => h j (List.mem_cons_of_mem i hj))

theorem removeFold_state_id (g : WorkerGroup) :
    ∀ (l : List Nat) (s : ForemanState),
      (poolKeys s.worker_threads).Nodup →
      (∀ i ∈ l, ∀ w, lookupW s.worker_threads (mkWorkerId g.name i) = some w →
        workerMarkSettled w) →
      l.foldl (removeWorkersStep g) s = s := by
  intro l
  induction l with
  | nil => intro s _ _; rfl
  | cons i l ih =>
    intro s hnd h
    have hstep : removeWorkersStep g s i = s := by
      simp only [removeWorkersStep]
      cases hq : lookupW s.worker_threads (mkWorkerId g.name i) with
      | none => rfl
      | some w =>
        simp only [mark_worker_thread_as_redundant]
        have : updateW s.worker_threads (mkWorkerId g.name i)
            (fun x => x.set_redundant w.idle) = s.worker_threads := by
          apply updateW_eq_self hnd
          intro w2 hw2
          rw [hq] at hw2
          obtain rfl := Option.some.inj hw2
          exact set_redundant_own_eq_self (h i (List.mem_cons_self i l) _ hq)
        rw [this]
    rw [List.foldl_cons, hstep]
    exact ih s hnd (fun j hj => h j (List.mem_cons_of_mem i hj))

theorem staleSweep_id {ids : List Nat} {names : List String} {p : Pool}
    (hs : sweepSettled ids names p) : staleSweep ids names p = p := by
  apply map_id_of_mem
  intro kv hkv
  by_cases hcond : kv.2.workerGroupId ∉ ids ∨ kv.2.name ∉ names
  · rw [if_pos hcond]
    rw [set_redundant_own_eq_self (hs kv hkv hcond)]
  · rw [if_neg hcond]

theorem groupsFold_state_id :
    ∀ (gs : List WorkerGroup) (a : ForemanState × List Nat × List String),
      (poolKeys a.1.worker_threads).Nodup →
      (∀ g ∈ gs, groupSettled g a.1.worker_threads) →
      (gs.foldl initGroupStep a).1 = a.1 := by
  intro gs
  induction gs with
  | nil => intro a _ _; rfl
  | cons g gs ih =>
    intro a hnd h
    have hg := h g (List.mem_cons_self g gs)
    have hcreate : ((List.range g.number_of_workers).foldl (createWorkersStep g)
        (a.1, a.2.2)).1 = a.1 :=
      createFold_state_id g _ _ (fun i hi => hg.1 i (List.mem_range.mp hi))
    have hstep : (initGroupStep a g).1 = a.1 := by
      unfold initGroupStep
      simp only
      rw [show ((List.range g.number_of_workers).foldl (createWorkersStep g)
          (a.1, a.2.2)).1 = a.1 from hcreate]
      apply removeFold_state_id g _ _ hnd
      intro i hi w hw
      have hmem := List.mem_range'_1.mp hi
      exact hg.2 i hmem.1 (by omega) w hw
    have hstep' : initGroupStep a g =
        (a.1, (initGroupStep a g).2.1, (initGroupStep a g).2.2) := by
      rw [← hstep]
    rw [List.foldl_cons, hstep']
    exact ih _ hnd (fun g2 hg2 => h g2 (List.mem_cons_of_mem g hg2))

/-- The fixpoint direction of idempotent reconciliation: on a settled state,
`init_worker_threads` is the identity. -/
theorem init_fixpoint (st : ForemanState)
    (hnd : (poolKeys st.worker_threads).Nodup)
    (ha : allAlive st.worker_threads)
    (hg : ∀ g ∈ st.groups, groupSettled g st.worker_threads)
    (hs : sweepSettled (allGroupIds st.groups) (expectedNames st.groups) st.worker_threads) :
    init_worker_threads st = st := by
  simp only [init_worker_threads]
  rw [prune_id st ha]
  have hcomp1 : (List.foldl initGroupStep (st, ([], [])) st.groups).2.1 =
      allGroupIds st.groups := by
    simpa using (groupsFold_components st.groups (st, ([], []))).1
  have hcomp2 : (List.foldl initGroupStep (st, ([], [])) st.groups).2.2 =
      expectedNames st.groups := by
    simpa using (groupsFold_components st.groups (st, ([], []))).2
  have hstate : (List.foldl initGroupStep (st, ([], [])) st.groups).1 = st :=
    groupsFold_state_id st.groups (st, ([], [])) hnd hg
  rw [hstate, hcomp1, hcomp2, staleSweep_id hs]


/-! ## C6: idempotent reconciliation — the establishment direction -/

theorem foldl_preserve_mem {α β : Type _} {P : α → Prop} {f : α → β → α} :
    ∀ (l : List β), (∀ a b, b ∈ l → P a → P (f a b)) → ∀ a, P a → P (l.foldl f a) := by
  intro l
  induction l with
  | nil => intro _ a h; exact h
  | cons b l ih =>
    intro hstep a h
    exact ih (fun a2 b2 hb2 => hstep a2 b2 (List.mem_cons_of_mem b hb2)) _
      (hstep a b (List.mem_cons_self b l) h)

theorem createStep_groups (g : WorkerGroup) (a : ForemanState × List String) (i : Nat) :
    (createWorkersStep g a i).1.groups = a.1.groups := by
  simp only [createWorkersStep]
  split <;> rfl

theorem removeStep_groups (g : WorkerGroup) (s : ForemanState) (i : Nat) :
    (removeWorkersStep g s i).groups = s.groups := by
  simp only [removeWorkersStep]
  split <;> rfl

theorem groupStep_groups (a : ForemanState × List Nat × List String) (g : WorkerGroup) :
    (initGroupStep a g).1.groups = a.1.groups := by
  unfold initGroupStep
  have h1 := @foldl_preserve _ _ (fun x : ForemanState × List String => x.1.groups = a.1.groups) _
    (fun x i hx => (createStep_groups g x i).trans hx) (List.range g.number_of_workers)
    (a.1, a.2.2) rfl
  exact @foldl_preserve _ _ (fun s : ForemanState => s.groups = a.1.groups) _
    (fun s i hs => (removeStep_groups g s i).trans hs) _ _ h1

theorem init_groups_eq (st : ForemanState) :
    (init_worker_threads st).groups = st.groups := by
  simp only [init_worker_threads]
  exact @foldl_preserve _ _
    (fun a : ForemanState × List Nat × List String => a.1.groups = st.groups) _
    (fun a g ha => (groupStep_groups a g).trans ha) _ _ rfl

theorem allAlive_createStep (g : WorkerGroup) (a : ForemanState × List String) (i : Nat)
    (h : allAlive a.1.worker_threads) :
    allAlive (createWorkersStep g a i).1.worker_threads := by
  simp only [createWorkersStep]
  split
  · exact h
  · intro kv hkv
    simp only [start_worker_thread] at hkv
    rcases List.mem_append.mp hkv with hold | hnew
    · exact h kv hold
    · rcases List.mem_singleton.mp hnew with rfl
      rfl

theorem allAlive_removeStep (g : WorkerGroup) (s : ForemanState) (i : Nat)
    (h : allAlive s.worker_threads) :
    allAlive (removeWorkersStep g s i).worker_threads := by
  simp only [removeWorkersStep]
  split
  · intro kv hkv
    simp only [mark_worker_thread_as_redundant] at hkv
    rcases mem_updateW.mp hkv with ⟨kv0, hkv0, heq⟩
    have := h kv0 hkv0
    by_cases h0 : kv0.1 = mkWorkerId g.name i <;>
      simp [h0, Worker.set_redundant] at heq <;>
      rw [heq] <;> simp_all [Worker.set_redundant]
  · exact h

theorem allAlive_sweep (ids : List Nat) (names : List String) (p : Pool)
    (h : allAlive p) : allAlive (staleSweep ids names p) := by
  intro kv hkv
  rcases List.mem_map.mp hkv with ⟨kv0, hkv0, heq⟩
  have ha := h kv0 hkv0
  by_cases hcond : kv0.2.workerGroupId ∉ ids ∨ kv0.2.name ∉ names <;>
    simp [hcond] at heq <;> rw [← heq] <;> simp_all [Worker.set_redundant]

theorem init_allAlive (st : ForemanState) :
    allAlive (init_worker_threads st).worker_threads := by
  have h0 : allAlive (prune_dead_threads st).worker_threads := by
    intro kv hkv
    have := List.of_mem_filter hkv
    simpa [Worker.is_alive] using this
  have h1 : allAlive ((prune_dead_threads st).groups.foldl initGroupStep
      (prune_dead_threads st, ([], []))).1.worker_threads := by
    refine @foldl_preserve _ _
      (fun a : ForemanState × List Nat × List String => allAlive a.1.worker_threads) _
      ?_ _ _ h0
    intro a g ha
    unfold initGroupStep
    have hc := @foldl_preserve _ _
      (fun x : ForemanState × List String => allAlive x.1.worker_threads) _
      (fun x i hx => allAlive_createStep g x i hx) (List.range g.number_of_workers)
      (a.1, a.2.2) ha
    exact @foldl_preserve _ _ (fun s : ForemanState => allAlive s.worker_threads) _
      (fun s i hs => allAlive_removeStep g s i hs) _ _ hc
  exact allAlive_sweep _ _ _ h1

/-! ### containsK and keyMarkSettled through the reconciliation steps -/

theorem containsK_append_one {p : Pool} {k : String} (x : String × Worker)
    (h : containsK p k = true) : containsK (p ++ [x]) k = true := by
  simp only [containsK] at h ⊢
  rw [lookupW_append_single]
  cases hq : lookupW p k with
  | none => rw [hq] at h; simp at h
  | some w => simp

theorem containsK_append_self (p : Pool) (k : String) (w : Worker) :
    containsK (p ++ [(k, w)]) k = true := by
  simp only [containsK]
  rw [lookupW_append_single]
  cases hq : lookupW p k with
  | none => simp
  | some w2 => simp

theorem containsK_createStep_mono (g : WorkerGroup) (a : ForemanState × List String)
    (i : Nat) {k : String} (h : containsK a.1.worker_threads k = true) :
    containsK (createWorkersStep g a i).1.worker_threads k = true := by
  simp only [createWorkersStep]
  split
  · exact h
  · exact containsK_append_one _ h

theorem containsK_removeStep (g : WorkerGroup) (s : ForemanState) (i : Nat) (k : String) :
    containsK (removeWorkersStep g s i).worker_threads k = containsK s.worker_threads k := by
  simp only [removeWorkersStep]
  cases hq : lookupW s.worker_threads (mkWorkerId g.name i) with
  | none => rfl
  | some w =>
    simp only [mark_worker_thread_as_redundant, containsK, lookupW_updateW]
    by_cases hk : k = mkWorkerId g.name i
    · subst hk
      rw [if_pos rfl]
      simp
    · rw [if_neg hk]

theorem createStep_own (g : WorkerGroup) (a : ForemanState × List String) (i : Nat) :
    containsK (createWorkersStep g a i).1.worker_threads (mkWorkerId g.name i) = true := by
  simp only [createWorkersStep]
  split
  · assumption
  · exact containsK_append_self _ _ _

theorem createFold_contains_mono (g : WorkerGroup) (l : List Nat)
    (a : ForemanState × List String) {k : String}
    (h : containsK a.1.worker_threads k = true) :
    containsK ((l.foldl (createWorkersStep g) a)).1.worker_threads k = true :=
  @foldl_preserve _ _ (fun x : ForemanState × List String =>
    containsK x.1.worker_threads k = true) _
    (fun x i hx => containsK_createStep_mono g x i hx) l a h

theorem createFold_contains (g : WorkerGroup) :
    ∀ (l : List Nat) (a : ForemanState × List String), ∀ i ∈ l,
      containsK ((l.foldl (createWorkersStep g) a)).1.worker_threads
        (mkWorkerId g.name i) = true := by
  intro l
  induction l with
  | nil => intro a i hi; cases hi
  | cons j l ih =>
    intro a i hi
    rcases List.mem_cons.mp hi with rfl | hi2
    · rw [List.foldl_cons]
      exact createFold_contains_mono g l _ (createStep_own g a i)
    · rw [List.foldl_cons]
      exact ih _ i hi2

/-- Settledness of the handle (if any) at one key. -/
def keyMarkSettled (p : Pool) (k : String) : Prop :=
  ∀ w, lookupW p k = some w → workerMarkSettled w

theorem keyMarkSettled_removeStep (g : WorkerGroup) (s : ForemanState) (j : Nat)
    {k : String} (h : keyMarkSettled s.worker_threads k) :
    keyMarkSettled (removeWorkersStep g s j).worker_threads k := by
  simp only [removeWorkersStep]
  cases hq : lookupW s.worker_threads (mkWorkerId g.name j) with
  | none => exact h
  | some w0 =>
    intro w hw
    simp only [mark_worker_thread_as_redundant, lookupW_updateW] at hw
    by_cases hk : k = mkWorkerId g.name j
    · rw [if_pos hk, hq] at hw
      simp only [Option.map_some'] at hw
      obtain rfl := Option.some.inj hw
      exact workerMarkSettled_set_own w0
    · rw [if_neg hk] at hw
      exact h w hw

theorem keyMarkSettled_removeStep_own (g : WorkerGroup) (s : ForemanState) (j : Nat) :
    keyMarkSettled (removeWorkersStep g s j).worker_threads (mkWorkerId g.name j) := by
  simp only [removeWorkersStep]
  cases hq : lookupW s.worker_threads (mkWorkerId g.name j) with
  | none =>
    intro w hw
    rw [hq] at hw
    cases hw
  | some w0 =>
    intro w hw
    simp only [mark_worker_thread_as_redundant, lookupW_updateW] at hw
    rw [hq] at hw
    simp only [if_true, Option.map_some'] at hw
    obtain rfl := Option.some.inj hw
    exact workerMarkSettled_set_own w0

theorem keyMarkSettled_createStep (g : WorkerGroup) (a : ForemanState × List String)
    (i : Nat) {k : String} (hne : mkWorkerId g.name i ≠ k)
    (h : keyMarkSettled a.1.worker_threads k) :
    keyMarkSettled (createWorkersStep g a i).1.worker_threads k := by
  simp only [createWorkersStep]
  split
  · exact h
  · intro w hw
    simp only [start_worker_thread] at hw
    rw [lookupW_append_single] at hw
    cases hq : lookupW a.1.worker_threads k with
    | some w0 =>
      rw [hq] at hw
      obtain rfl := Option.some.inj hw
      exact h _ hq
    | none =>
      rw [hq, if_neg hne] at hw
      cases hw

theorem keyMarkSettled_sweep (ids : List Nat) (names : List String) (p : Pool)
    {k : String} (h : keyMarkSettled p k) :
    keyMarkSettled (staleSweep ids names p) k := by
  intro w hw
  rw [lookupW_staleSweep] at hw
  cases hq : lookupW p k with
  | none => rw [hq] at hw; cases hw
  | some w0 =>
    rw [hq] at hw
    simp only [Option.map_some'] at hw
    obtain rfl := Option.some.inj hw
    split
    · exact workerMarkSettled_set_own w0
    · exact h w0 hq

/-! ### Assembling idempotence -/

theorem containsK_removeFold (g : WorkerGroup) (l : List Nat) (s : ForemanState)
    {k : String} (h : containsK s.worker_threads k = true) :
    containsK ((l.foldl (removeWorkersStep g) s)).worker_threads k = true :=
  @foldl_preserve _ _ (fun x : ForemanState => containsK x.worker_threads k = true) _
    (fun x i hx => (containsK_removeStep g x i k).trans hx) l s h

theorem removeFold_preserves_settled (g : WorkerGroup) (l : List Nat) (s : ForemanState)
    {k : String} (h : keyMarkSettled s.worker_threads k) :
    keyMarkSettled ((l.foldl (removeWorkersStep g) s)).worker_threads k :=
  @foldl_preserve _ _ (fun x : ForemanState => keyMarkSettled x.worker_threads k) _
    (fun x i hx => keyMarkSettled_removeStep g x i hx) l s h

theorem removeFold_settles (g : WorkerGroup) :
    ∀ (l : List Nat) (s : ForemanState), ∀ i ∈ l,
      keyMarkSettled ((l.foldl (removeWorkersStep g) s)).worker_threads
        (mkWorkerId g.name i) := by
  intro l
  induction l with
  | nil => intro s i hi; cases hi
  | cons j l ih =>
    intro s i hi
    rcases List.mem_cons.mp hi with rfl | hi2
    · rw [List.foldl_cons]
      exact removeFold_preserves_settled g l _ (keyMarkSettled_removeStep_own g s i)
    · rw [List.foldl_cons]
      exact ih _ i hi2

/-- Worker-id spaces of two groups are disjoint over the index ranges the
reconciler can touch; the spec requires group names to be unique, which makes
the derived id spaces disjoint. -/
def mkWorkerIdsDisjoint (g g2 : WorkerGroup) : Prop :=
  ∀ i, i < max g.number_of_workers 12 → ∀ j, j < max g2.number_of_workers 12 →
    mkWorkerId g.name i ≠ mkWorkerId g2.name j

instance (g g2 : WorkerGroup) : Decidable (mkWorkerIdsDisjoint g g2) := by
  unfold mkWorkerIdsDisjoint
  infer_instance

theorem groupStep_settles (a : ForemanState × List Nat × List String) (g : WorkerGroup) :
    groupSettled g (initGroupStep a g).1.worker_threads := by
  unfold initGroupStep
  constructor
  · intro i hi
    exact containsK_removeFold g _ _
      (createFold_contains g _ (a.1, a.2.2) i (List.mem_range.mpr hi))
  · intro i hn h12 w hw
    have hi : i ∈ List.range' g.number_of_workers (12 - g.number_of_workers) :=
      List.mem_range'_1.mpr ⟨hn, by omega⟩
    exact removeFold_settles g _ _ i hi w hw

theorem groupStep_preserves_settled (a : ForemanState × List Nat × List String)
    (g g2 : WorkerGroup) (hdisj : mkWorkerIdsDisjoint g g2)
    (h : groupSettled g a.1.worker_threads) :
    groupSettled g (initGroupStep a g2).1.worker_threads := by
  unfold initGroupStep
  constructor
  · intro i hi
    exact containsK_removeFold g2 _ _ (createFold_contains_mono g2 _ _ (h.1 i hi))
  · intro i hn h12
    have hset : keyMarkSettled a.1.worker_threads (mkWorkerId g.name i) := h.2 i hn h12
    have h1 : keyMarkSettled
        ((List.range g2.number_of_workers).foldl (createWorkersStep g2)
          (a.1, a.2.2)).1.worker_threads (mkWorkerId g.name i) := by
      refine @foldl_preserve_mem _ _
        (fun x : ForemanState × List String =>
          keyMarkSettled x.1.worker_threads (mkWorkerId g.name i)) _
        (List.range g2.number_of_workers) ?_ _ hset
      intro x j hj hx
      have hj2 : j < max g2.number_of_workers 12 :=
        lt_of_lt_of_le (List.mem_range.mp hj) (le_max_left _ _)
      have hi2 : i < max g.number_of_workers 12 := lt_of_lt_of_le h12 (le_max_right _ _)
      exact keyMarkSettled_createStep g2 x j (hdisj i hi2 j hj2).symm hx
    exact removeFold_preserves_settled g2 _ _ h1

theorem groupsFold_settles :
    ∀ (gs : List WorkerGroup) (a : ForemanState × List Nat × List String),
      gs.Pairwise mkWorkerIdsDisjoint → ∀ g ∈ gs,
        groupSettled g ((gs.foldl initGroupStep a)).1.worker_threads := by
  intro gs
  induction gs with
  | nil => intro a _ g hg; cases hg
  | cons g0 gs ih =>
    intro a hpw g hg
    have hpw2 := List.pairwise_cons.mp hpw
    rcases List.mem_cons.mp hg with rfl | hg2
    · rw [List.foldl_cons]
      refine @foldl_preserve_mem _ _
        (fun x : ForemanState × List Nat × List String =>
          groupSettled g x.1.worker_threads) _ gs ?_ _ (groupStep_settles a g)
      intro a2 b hb hset
      exact groupStep_preserves_settled a2 g b (hpw2.1 b hb) hset
    · rw [List.foldl_cons]
      exact ih _ hpw2.2 g hg2

theorem containsK_sweep (ids : List Nat) (names : List String) (p : Pool) (k : String) :
    containsK (staleSweep ids names p) k = containsK p k := by
  simp only [containsK, lookupW_staleSweep]
  cases lookupW p k <;> rfl

theorem sweep_preserves_groupSettled (ids : List Nat) (names : List String) (p : Pool)
    (g : WorkerGroup) (h : groupSettled g p) :
    groupSettled g (staleSweep ids names p) := by
  constructor
  · intro i hi
    rw [containsK_sweep]
    exact h.1 i hi
  · intro i hn h12
    exact keyMarkSettled_sweep _ _ _ (h.2 i hn h12)

theorem staleSweep_settles (ids : List Nat) (names : List String) (p : Pool) :
    sweepSettled ids names (staleSweep ids names p) := by
  intro kv hkv hcond
  rcases List.mem_map.mp hkv with ⟨kv0, hkv0, heq⟩
  subst heq
  by_cases hcond0 : kv0.2.workerGroupId ∉ ids ∨ kv0.2.name ∉ names
  · rw [if_pos hcond0]
    exact workerMarkSettled_set_own kv0.2
  · rw [if_neg hcond0] at hcond
    exact absurd hcond hcond0

theorem init_established (st : ForemanState)
    (hdisj : st.groups.Pairwise mkWorkerIdsDisjoint) :
    (∀ g ∈ st.groups, groupSettled g (init_worker_threads st).worker_threads) ∧
    sweepSettled (allGroupIds st.groups) (expectedNames st.groups)
      (init_worker_threads st).worker_threads := by
  constructor
  · intro g hg
    have hset := groupsFold_settles (prune_dead_threads st).groups
      (prune_dead_threads st, ([], [])) hdisj g hg
    exact sweep_preserves_groupSettled _ _ _ g hset
  · have hcomp1 : (List.foldl initGroupStep (prune_dead_threads st, ([], []))
        (prune_dead_threads st).groups).2.1 = allGroupIds st.groups := by
      simpa using (groupsFold_components (prune_dead_threads st).groups
        (prune_dead_threads st, ([], []))).1
    have hcomp2 : (List.foldl initGroupStep (prune_dead_threads st, ([], []))
        (prune_dead_threads st).groups).2.2 = expectedNames st.groups := by
      simpa using (groupsFold_components (prune_dead_threads st).groups
        (prune_dead_threads st, ([], []))).2
    show sweepSettled (allGroupIds st.groups) (expectedNames st.groups)
      (staleSweep
        (List.foldl initGroupStep (prune_dead_threads st, ([], []))
          (prune_dead_threads st).groups).2.1
        (List.foldl initGroupStep (prune_dead_threads st, ([], []))
          (prune_dead_threads st).groups).2.2
        (List.foldl initGroupStep (prune_dead_threads st, ([], []))
          (prune_dead_threads st).groups).1.worker_threads)
    rw [hcomp1, hcomp2]
    exact staleSweep_settles _ _ _

/-- C6: running `init_worker_threads` twice in succession with an unchanged
WorkerGroup configuration (and, in this pure embedding, unchanged worker
liveness and idle state) leaves the state of the first run untouched: the
second run creates no worker, marks nothing newly redundant, and returns the
identical state. Hypotheses: the pool map has unique keys (a dict invariant)
and distinct groups have disjoint derived worker-id spaces (the spec's
unique-name invariant). -/
theorem c6_reconciliation_idempotent (st : ForemanState)
    (hnd : (poolKeys st.worker_threads).Nodup)
    (hdisj : st.groups.Pairwise mkWorkerIdsDisjoint) :
    init_worker_threads (init_worker_threads st) = init_worker_threads st := by
  have hE := init_established st hdisj
  apply init_fixpoint
  · exact init_nodup st hnd
  · exact init_allAlive st
  · intro g hg
    rw [init_groups_eq] at hg
    exact hE.1 g hg
  · rw [init_groups_eq]
    exact hE.2

/-- Two worker groups with distinct names for the C6 witness. -/
def c6State : ForemanState :=
  { emptyState with groups :=
      [{ id := 1, name := "A", number_of_workers := 1, event_schedules := [] },
       { id := 2, name := "B", number_of_workers := 2, event_schedules := [] }] }

/-- Witness for C6 at a concrete input. -/
theorem c6_witness :
    init_worker_threads (init_worker_threads c6State) = init_worker_threads c6State :=
  c6_reconciliation_idempotent c6State (by decide) (by decide)

/-! ## C1: capacity invariant — worker-id arithmetic -/

theorem string_data_append (a b : String) : (a ++ b).data = a.data ++ b.data := rfl

theorem string_eq_of_data_eq {a b : String} (h : a.data = b.data) : a = b := by
  cases a
  cases b
  exact congrArg String.mk (by simpa using h)

theorem natToStr_inj12 : ∀ i, i < 13 → ∀ j, j < 13 → natToStr i = natToStr j → i = j := by
  decide

theorem mkWorkerId_inj (nm : String) {i j : Nat} (hi : i < 12) (hj : j < 12)
    (h : mkWorkerId nm i = mkWorkerId nm j) : i = j := by
  unfold mkWorkerId at h
  have hdata := congrArg String.data h
  rw [string_data_append, string_data_append] at hdata
  have h2 : (natToStr i).data = (natToStr j).data := List.append_cancel_left hdata
  exact natToStr_inj12 i (by omega) j (by omega) (string_eq_of_data_eq h2)

theorem expectedNames_cons (g : WorkerGroup) (gs : List WorkerGroup) :
    expectedNames (g :: gs) = groupNames g ++ expectedNames gs := by
  show (g :: gs).foldl (fun ns g => ns ++ groupNames g) [] = _
  rw [List.foldl_cons, expectedNames_shift gs ([] ++ groupNames g)]
  simp

theorem mem_expectedNames {g : WorkerGroup} {groups : List WorkerGroup}
    (hg : g ∈ groups) {i : Nat} (hi : i < g.number_of_workers) :
    mkWorkerName g.name i ∈ expectedNames groups := by
  induction groups with
  | nil => cases hg
  | cons g0 gs ih =>
    rw [expectedNames_cons, List.mem_append]
    rcases List.mem_cons.mp hg with rfl | hg2
    · exact Or.inl (List.mem_map_of_mem _ (List.mem_range.mpr hi))
    · exact Or.inr (ih hg2)

theorem mem_allGroupIds {g : WorkerGroup} {groups : List WorkerGroup} (hg : g ∈ groups) :
    g.id ∈ allGroupIds groups := List.mem_map_of_mem _ hg

/-! ### C1 invariants: below-count handles and the id scheme -/

/-- Every handle at a below-count derived id of group `g` belongs to `g`,
carries the derived display name, is not redundant and is alive. -/
def belowGood (g : WorkerGroup) (p : Pool) : Prop :=
  ∀ i, i < g.number_of_workers → ∀ w, lookupW p (mkWorkerId g.name i) = some w →
    w.workerGroupId = g.id ∧ w.name = mkWorkerName g.name i ∧
    w.redundant = Redundancy.notRedundant ∧ w.alive = true

/-- Every handle of group `g` sits at one of the twelve derived ids of `g`. -/
def gScheme (g : WorkerGroup) (p : Pool) : Prop :=
  ∀ kv ∈ p, kv.2.workerGroupId = g.id → ∃ i, i < 12 ∧ kv.1 = mkWorkerId g.name i

theorem mkWorkerIdsDisjoint_symm {g g2 : WorkerGroup} (h : mkWorkerIdsDisjoint g g2) :
    mkWorkerIdsDisjoint g2 g :=
  fun i hi j hj => (h j hj i hi).symm

theorem belowGood_createStep (g g2 : WorkerGroup) (x : ForemanState × List String)
    (i2 : Nat) (hn : g.number_of_workers ≤ 12)
    (hi2 : i2 < max g2.number_of_workers 12)
    (hcase : g2 = g ∨ mkWorkerIdsDisjoint g g2)
    (h : belowGood g x.1.worker_threads) :
    belowGood g (createWorkersStep g2 x i2).1.worker_threads := by
  simp only [createWorkersStep]
  split
  · exact h
  · intro i hi w hw
    simp only [start_worker_thread] at hw
    rw [lookupW_append_single] at hw
    cases hq : lookupW x.1.worker_threads (mkWorkerId g.name i) with
    | some w0 =>
      rw [hq] at hw
      obtain rfl := Option.some.inj hw
      exact h i hi _ hq
    | none =>
      rw [hq] at hw
      by_cases hk : mkWorkerId g2.name i2 = mkWorkerId g.name i
      · rw [if_pos hk] at hw
        obtain rfl := Option.some.inj hw
        rcases hcase with rfl | hdisj
        · have h12 : max g2.number_of_workers 12 = 12 := Nat.max_eq_right hn
          have hii : i2 = i := mkWorkerId_inj g2.name (by omega) (by omega) hk
          subst hii
          exact ⟨rfl, rfl, rfl, rfl⟩
        · exact absurd hk.symm
            (hdisj i (lt_of_lt_of_le (by omega) (le_max_right _ _)) i2 hi2)
      · rw [if_neg hk] at hw
        cases hw

theorem belowGood_removeStep (g g2 : WorkerGroup) (s : ForemanState) (j : Nat)
    (hn : g.number_of_workers ≤ 12)
    (hj1 : g2.number_of_workers ≤ j) (hj2 : j < 12)
    (hcase : g2 = g ∨ mkWorkerIdsDisjoint g g2)
    (h : belowGood g s.worker_threads) :
    belowGood g (removeWorkersStep g2 s j).worker_threads := by
  simp only [removeWorkersStep]
  cases hq : lookupW s.worker_threads (mkWorkerId g2.name j) with
  | none => exact h
  | some w0 =>
    intro i hi w hw
    simp only [mark_worker_thread_as_redundant, lookupW_updateW] at hw
    have hk : ¬(mkWorkerId g.name i = mkWorkerId g2.name j) := by
      rcases hcase with rfl | hdisj
      · intro hk
        have := mkWorkerId_inj g2.name (by omega) hj2 hk
        omega
      · exact hdisj i (lt_of_lt_of_le (by omega) (le_max_right _ _)) j
          (lt_of_lt_of_le hj2 (le_max_right _ _))
    rw [if_neg hk] at hw
    exact h i hi w hw

theorem gScheme_createStep (g g2 : WorkerGroup) (x : ForemanState × List String)
    (i2 : Nat) (hn : g.number_of_workers ≤ 12)
    (hcase : (g2 = g ∧ i2 < g2.number_of_workers) ∨ g2.id ≠ g.id)
    (h : gScheme g x.1.worker_threads) :
    gScheme g (createWorkersStep g2 x i2).1.worker_threads := by
  simp only [createWorkersStep]
  split
  · exact h
  · intro kv hkv hgid
    simp only [start_worker_thread] at hkv
    rcases List.mem_append.mp hkv with hold | hnew
    · exact h kv hold hgid
    · rcases List.mem_singleton.mp hnew with rfl
      rcases hcase with ⟨rfl, hi2⟩ | hne
      · exact ⟨i2, by omega, rfl⟩
      · exact absurd hgid hne

theorem gScheme_removeStep (g g2 : WorkerGroup) (s : ForemanState) (j : Nat)
    (h : gScheme g s.worker_threads) :
    gScheme g (removeWorkersStep g2 s j).worker_threads := by
  simp only [removeWorkersStep]
  cases hq : lookupW s.worker_threads (mkWorkerId g2.name j) with
  | none => exact h
  | some w0 =>
    intro kv hkv hgid
    simp only [mark_worker_thread_as_redundant] at hkv
    rcases mem_updateW.mp hkv with ⟨kv0, hkv0, heq⟩
    by_cases h0 : kv0.1 = mkWorkerId g2.name j
    · rw [if_pos h0] at heq
      subst heq
      exact h kv0 hkv0 hgid
    · rw [if_neg h0] at heq
      rw [heq] at hgid ⊢
      exact h kv0 hkv0 hgid

theorem gScheme_sweep (g : WorkerGroup) (ids : List Nat) (names : List String) (p : Pool)
    (h : gScheme g p) : gScheme g (staleSweep ids names p) := by
  intro kv hkv hgid
  rcases List.mem_map.mp hkv with ⟨kv0, hkv0, heq⟩
  subst heq
  by_cases hcond : kv0.2.workerGroupId ∉ ids ∨ kv0.2.name ∉ names
  · rw [if_pos hcond] at hgid ⊢
    exact h kv0 hkv0 hgid
  · rw [if_neg hcond] at hgid ⊢
    exact h kv0 hkv0 hgid

theorem belowGood_sweep (g : WorkerGroup) (ids : List Nat) (names : List String)
    (p : Pool) (hgid : g.id ∈ ids)
    (hnames : ∀ i, i < g.number_of_workers → mkWorkerName g.name i ∈ names)
    (h : belowGood g p) : belowGood g (staleSweep ids names p) := by
  intro i hi w hw
  rw [lookupW_staleSweep] at hw
  cases hq : lookupW p (mkWorkerId g.name i) with
  | none => rw [hq] at hw; cases hw
  | some w0 =>
    rw [hq] at hw
    simp only [Option.map_some'] at hw
    have hp := h i hi w0 hq
    have hcond : ¬(w0.workerGroupId ∉ ids ∨ w0.name ∉ names) := by
      push_neg
      constructor
      · rw [hp.1]; exact hgid
      · rw [hp.2.1]; exact hnames i hi
    rw [if_neg hcond] at hw
    obtain rfl := Option.some.inj hw
    exact hp

theorem belowGood_prune (st : ForemanState) (g : WorkerGroup)
    (hnd : (poolKeys st.worker_threads).Nodup)
    (hbelow : ∀ i, i < g.number_of_workers → ∀ w,
      lookupW st.worker_threads (mkWorkerId g.name i) = some w →
      w.workerGroupId = g.id ∧ w.name = mkWorkerName g.name i ∧
      w.redundant = Redundancy.notRedundant) :
    belowGood g (prune_dead_threads st).worker_threads := by
  intro i hi w hw
  have hmem : (mkWorkerId g.name i, w) ∈
      st.worker_threads.filter (fun kv => kv.2.is_alive) := mem_of_lookupW hw
  have halive : w.is_alive = true := (List.mem_filter.mp hmem).2
  have hmem2 : (mkWorkerId g.name i, w) ∈ st.worker_threads :=
    List.mem_of_mem_filter hmem
  have hl : lookupW st.worker_threads (mkWorkerId g.name i) = some w :=
    lookupW_of_mem hnd hmem2
  have hp := hbelow i hi w hl
  exact ⟨hp.1, hp.2.1, hp.2.2, by simpa [Worker.is_alive] using halive⟩

theorem gScheme_prune (st : ForemanState) (g : WorkerGroup)
    (h : gScheme g st.worker_threads) :
    gScheme g (prune_dead_threads st).worker_threads := by
  intro kv hkv hgid
  exact h kv (List.mem_of_mem_filter hkv) hgid

/-! ### C1: counting live handles -/

/-- A handle is live for group id `gid`: belongs to the group, alive, not
redundant. -/
def liveB (gid : Nat) (w : Worker) : Bool :=
  w.workerGroupId == gid && w.alive && w.redundant == Redundancy.notRedundant

/-- The number of live handles of the group in the pool map. -/
def liveCount (gid : Nat) (p : Pool) : Nat :=
  p.countP (fun kv => liveB gid kv.2)

/-- Whether the handle at key `k` (if any) is live for `gid`. -/
def liveAt (gid : Nat) (p : Pool) (k : String) : Bool :=
  match lookupW p k with
  | some w => liveB gid w
  | none => false

theorem countP_congr_own {l : List Nat} {f f2 : Nat → Bool} (h : ∀ i ∈ l, f i = f2 i) :
    l.countP f = l.countP f2 := by
  induction l with
  | nil => rfl
  | cons x l ih =>
    rw [List.countP_cons, List.countP_cons, h x (List.mem_cons_self x l),
      ih (fun i hi => h i (List.mem_cons_of_mem x hi))]

theorem countP_point {l : List Nat} (hnd : l.Nodup) {i0 : Nat} (hi0 : i0 ∈ l)
    {f f2 : Nat → Bool} (hagree : ∀ i ∈ l, i ≠ i0 → f i = f2 i)
    (h0 : f2 i0 = false) (h1 : f i0 = true) :
    l.countP f = l.countP f2 + 1 := by
  induction l with
  | nil => cases hi0
  | cons x l ih =>
    rw [List.countP_cons, List.countP_cons]
    rcases List.mem_cons.mp hi0 with rfl | hmem
    · have hxl : i0 ∉ l := (List.nodup_cons.mp hnd).1
      have heq : l.countP f = l.countP f2 :=
        countP_congr_own (fun i hi => hagree i (List.mem_cons_of_mem _ hi)
          (fun hh => hxl (hh ▸ hi)))
      rw [h1, h0, heq]
      simp
    · have hx : x ≠ i0 := fun hh => (List.nodup_cons.mp hnd).1 (hh ▸ hmem)
      rw [hagree x (List.mem_cons_self x l) hx]
      have := ih (List.nodup_cons.mp hnd).2 hmem
        (fun i hi hne => hagree i (List.mem_cons_of_mem x hi) hne)
      omega

theorem liveCount_char (gid : Nat) (nm : String) :
    ∀ (p : Pool), (poolKeys p).Nodup →
      (∀ kv ∈ p, liveB gid kv.2 = true → ∃ i, i < 12 ∧ kv.1 = mkWorkerId nm i) →
      liveCount gid p =
        (List.range 12).countP (fun i => liveAt gid p (mkWorkerId nm i)) := by
  intro p
  induction p with
  | nil =>
    intro _ _
    have hz : ∀ i ∈ List.range 12,
        liveAt gid ([] : Pool) (mkWorkerId nm i) = (fun _ : Nat => false) i := by
      intro i _
      rfl
    rw [show liveCount gid ([] : Pool) = 0 from rfl, countP_congr_own hz]
    simp
  | cons kv p ih =>
    intro hnd hsch
    have hnd2 : (poolKeys p).Nodup := by
      rw [poolKeys, List.map_cons] at hnd
      exact (List.nodup_cons.mp hnd).2
    have hknotin : kv.1 ∉ poolKeys p := by
      rw [poolKeys, List.map_cons] at hnd
      exact (List.nodup_cons.mp hnd).1
    have hnone : lookupW p kv.1 = none := (lookupW_eq_none_iff p kv.1).mpr hknotin
    have hsch2 : ∀ kv2 ∈ p, liveB gid kv2.2 = true →
        ∃ i, i < 12 ∧ kv2.1 = mkWorkerId nm i :=
      fun kv2 h2 => hsch kv2 (List.mem_cons_of_mem kv h2)
    rw [show liveCount gid (kv :: p) =
      liveCount gid p + (if liveB gid kv.2 then 1 else 0) from List.countP_cons _ _ _]
    cases hl : liveB gid kv.2 with
    | true =>
      rcases hsch kv (List.mem_cons_self kv p) hl with ⟨i0, hi0, hk0⟩
      have hagree : ∀ i ∈ List.range 12, i ≠ i0 →
          liveAt gid (kv :: p) (mkWorkerId nm i) = liveAt gid p (mkWorkerId nm i) := by
        intro i hi hne
        unfold liveAt
        rw [lookupW_cons]
        have hkne : ¬(kv.1 = mkWorkerId nm i) := by
          rw [hk0]
          intro hh
          exact hne (mkWorkerId_inj nm hi0 (List.mem_range.mp hi) hh).symm
        rw [if_neg hkne]
      have hcons0 : liveAt gid (kv :: p) (mkWorkerId nm i0) = true := by
        unfold liveAt
        rw [lookupW_cons, if_pos hk0]
        exact hl
      have hp0 : liveAt gid p (mkWorkerId nm i0) = false := by
        unfold liveAt
        rw [← hk0, hnone]
      rw [ih hnd2 hsch2,
        countP_point (List.nodup_range 12) (List.mem_range.mpr hi0) hagree hp0 hcons0]
      simp
    | false =>
      have hagree : ∀ i ∈ List.range 12,
          liveAt gid (kv :: p) (mkWorkerId nm i) = liveAt gid p (mkWorkerId nm i) := by
        intro i _
        unfold liveAt
        rw [lookupW_cons]
        by_cases hk : kv.1 = mkWorkerId nm i
        · rw [if_pos hk, ← hk, hnone]
          exact hl
        · rw [if_neg hk]
      rw [ih hnd2 hsch2, countP_congr_own hagree]
      simp

theorem countP_range12_lt (n : Nat) (hn : n ≤ 12) :
    (List.range 12).countP (fun i => decide (i < n)) = n := by
  interval_cases n <;> decide

/-! ### C1: assembly -/

theorem pairwise_disjoint_of_mem {l : List WorkerGroup}
    (h : l.Pairwise mkWorkerIdsDisjoint) {a b : WorkerGroup}
    (ha : a ∈ l) (hb : b ∈ l) (hne : a ≠ b) : mkWorkerIdsDisjoint a b := by
  induction l with
  | nil => cases ha
  | cons x l ih =>
    have hp := List.pairwise_cons.mp h
    rcases List.mem_cons.mp ha with rfl | ha2
    · rcases List.mem_cons.mp hb with rfl | hb2
      · exact absurd rfl hne
      · exact hp.1 b hb2
    · rcases List.mem_cons.mp hb with rfl | hb2
      · exact mkWorkerIdsDisjoint_symm (hp.1 a ha2)
      · exact ih hp.2 ha2 hb2

theorem c1_fold (g : WorkerGroup) (hn : g.number_of_workers ≤ 12)
    (gs : List WorkerGroup) (a : ForemanState × List Nat × List String)
    (hball : ∀ b ∈ gs, b = g ∨ (mkWorkerIdsDisjoint g b ∧ b.id ≠ g.id))
    (hb : belowGood g a.1.worker_threads) (hs : gScheme g a.1.worker_threads) :
    belowGood g (gs.foldl initGroupStep a).1.worker_threads ∧
    gScheme g (gs.foldl initGroupStep a).1.worker_threads := by
  refine @foldl_preserve_mem _ _
    (fun x : ForemanState × List Nat × List String =>
      belowGood g x.1.worker_threads ∧ gScheme g x.1.worker_threads) _
    gs ?_ a ⟨hb, hs⟩
  intro x b hbmem hx
  have hcase1 : b = g ∨ mkWorkerIdsDisjoint g b := by
    rcases hball b hbmem with rfl | ⟨hd, _⟩
    · exact Or.inl rfl
    · exact Or.inr hd
  have hcreate := @foldl_preserve_mem _ _
    (fun y : ForemanState × List String =>
      belowGood g y.1.worker_threads ∧ gScheme g y.1.worker_threads) _
    (List.range b.number_of_workers)
    (fun y i2 hi2 hy => by
      have hi2b : i2 < b.number_of_workers := List.mem_range.mp hi2
      refine ⟨belowGood_createStep g b y i2 hn
        (lt_of_lt_of_le hi2b (le_max_left _ _)) hcase1 hy.1, ?_⟩
      refine gScheme_createStep g b y i2 hn ?_ hy.2
      rcases hball b hbmem with rfl | ⟨_, hne⟩
      · exact Or.inl ⟨rfl, hi2b⟩
      · exact Or.inr hne)
    (x.1, x.2.2) hx
  exact @foldl_preserve_mem _ _
    (fun s : ForemanState =>
      belowGood g s.worker_threads ∧ gScheme g s.worker_threads) _
    (List.range' b.number_of_workers (12 - b.number_of_workers))
    (fun s j hj hy => by
      have hjb := List.mem_range'_1.mp hj
      exact ⟨belowGood_removeStep g b s j hn hjb.1 (by omega) hcase1 hy.1,
        gScheme_removeStep g b s j hy.2⟩)
    _ hcreate

/-- C1: capacity invariant. For a WorkerGroup `g` in the store with
`number_of_workers ≤ 12`, after `init_worker_threads` runs on an unchanged
configuration (hypotheses: pool keys unique; groups pairwise id-space
disjoint, i.e. names unique; distinct groups have distinct ids; every
pre-existing handle at a below-count derived id of `g` belongs to `g` under
the naming scheme and is not redundant; every handle of `g` sits at one of
`g`'s twelve derived ids), the pool map holds a live non-redundant handle of
`g` at exactly the derived ids of indices `0..number_of_workers-1`, every
handle of `g` at an index in `[number_of_workers, 12)` is marked redundant,
and the count of live handles of `g` equals `min(number_of_workers, 12)`. -/
theorem c1_capacity_invariant (st : ForemanState) (g : WorkerGroup)
    (hg : g ∈ st.groups)
    (hn : g.number_of_workers ≤ 12)
    (hnd : (poolKeys st.worker_threads).Nodup)
    (hdisj : st.groups.Pairwise mkWorkerIdsDisjoint)
    (hids : ∀ g2 ∈ st.groups, g2 ≠ g → g2.id ≠ g.id)
    (hbelow : ∀ i, i < g.number_of_workers → ∀ w,
      lookupW st.worker_threads (mkWorkerId g.name i) = some w →
      w.workerGroupId = g.id ∧ w.name = mkWorkerName g.name i ∧
      w.redundant = Redundancy.notRedundant)
    (hscheme : gScheme g st.worker_threads) :
    (∀ i, i < g.number_of_workers →
      ∃ w, lookupW (init_worker_threads st).worker_threads (mkWorkerId g.name i) =
          some w ∧
        w.alive = true ∧ w.redundant = Redundancy.notRedundant ∧
        w.workerGroupId = g.id ∧ w.name = mkWorkerName g.name i) ∧
    (∀ i, g.number_of_workers ≤ i → i < 12 →
      ∀ w, lookupW (init_worker_threads st).worker_threads (mkWorkerId g.name i) =
          some w →
        w.redundant ≠ Redundancy.notRedundant) ∧
    liveCount g.id (init_worker_threads st).worker_threads =
      min g.number_of_workers 12 := by
  have hDall : ∀ b ∈ st.groups, b = g ∨ (mkWorkerIdsDisjoint g b ∧ b.id ≠ g.id) := by
    intro b hbm
    by_cases hbe : b = g
    · exact Or.inl hbe
    · exact Or.inr ⟨pairwise_disjoint_of_mem hdisj hg hbm (fun hh => hbe hh.symm),
        hids b hbm hbe⟩
  have hb0 : belowGood g (prune_dead_threads st).worker_threads :=
    belowGood_prune st g hnd hbelow
  have hs0 : gScheme g (prune_dead_threads st).worker_threads :=
    gScheme_prune st g hscheme
  have hfold := c1_fold g hn (prune_dead_threads st).groups
    (prune_dead_threads st, ([], [])) hDall hb0 hs0
  have hcomp1 : (List.foldl initGroupStep (prune_dead_threads st, ([], []))
      (prune_dead_threads st).groups).2.1 = allGroupIds st.groups := by
    simpa using (groupsFold_components (prune_dead_threads st).groups
      (prune_dead_threads st, ([], []))).1
  have hcomp2 : (List.foldl initGroupStep (prune_dead_threads st, ([], []))
      (prune_dead_threads st).groups).2.2 = expectedNames st.groups := by
    simpa using (groupsFold_components (prune_dead_threads st).groups
      (prune_dead_threads st, ([], []))).2
  have hbF : belowGood g (init_worker_threads st).worker_threads := by
    show belowGood g (staleSweep
      (List.foldl initGroupStep (prune_dead_threads st, ([], []))
        (prune_dead_threads st).groups).2.1
      (List.foldl initGroupStep (prune_dead_threads st, ([], []))
        (prune_dead_threads st).groups).2.2
      (List.foldl initGroupStep (prune_dead_threads st, ([], []))
        (prune_dead_threads st).groups).1.worker_threads)
    rw [hcomp1, hcomp2]
    exact belowGood_sweep g _ _ _ (mem_allGroupIds hg)
      (fun i hi => mem_expectedNames hg hi) hfold.1
  have hsF : gScheme g (init_worker_threads st).worker_threads := by
    show gScheme g (staleSweep
      (List.foldl initGroupStep (prune_dead_threads st, ([], []))
        (prune_dead_threads st).groups).2.1
      (List.foldl initGroupStep (prune_dead_threads st, ([], []))
        (prune_dead_threads st).groups).2.2
      (List.foldl initGroupStep (prune_dead_threads st, ([], []))
        (prune_dead_threads st).groups).1.worker_threads)
    exact gScheme_sweep g _ _ _ hfold.2
  have hgs := (init_established st hdisj).1 g hg
  have hone : ∀ i, i < g.number_of_workers →
      ∃ w, lookupW (init_worker_threads st).worker_threads (mkWorkerId g.name i) =
          some w ∧
        w.alive = true ∧ w.redundant = Redundancy.notRedundant ∧
        w.workerGroupId = g.id ∧ w.name = mkWorkerName g.name i := by
    intro i hi
    have hck := hgs.1 i hi
    cases hq : lookupW (init_worker_threads st).worker_threads
        (mkWorkerId g.name i) with
    | none => simp [containsK, hq] at hck
    | some w =>
      have hp := hbF i hi w hq
      exact ⟨w, rfl, hp.2.2.2, hp.2.2.1, hp.1, hp.2.1⟩
  have htwo : ∀ i, g.number_of_workers ≤ i → i < 12 →
      ∀ w, lookupW (init_worker_threads st).worker_threads (mkWorkerId g.name i) =
          some w →
        w.redundant ≠ Redundancy.notRedundant := by
    intro i hn1 h12 w hw
    have hset := hgs.2 i hn1 h12 w hw
    unfold workerMarkSettled at hset
    rw [hset]
    cases hwi : w.idle <;> simp
  refine ⟨hone, htwo, ?_⟩
  have hsch : ∀ kv ∈ (init_worker_threads st).worker_threads,
      liveB g.id kv.2 = true → ∃ i, i < 12 ∧ kv.1 = mkWorkerId g.name i := by
    intro kv hkv hlive
    have hgid : kv.2.workerGroupId = g.id := by
      simp only [liveB, Bool.and_eq_true, beq_iff_eq] at hlive
      exact hlive.1.1
    exact hsF kv hkv hgid
  rw [liveCount_char g.id g.name (init_worker_threads st).worker_threads
    (init_nodup st hnd) hsch]
  have hcong : ∀ i ∈ List.range 12,
      liveAt g.id (init_worker_threads st).worker_threads (mkWorkerId g.name i) =
        decide (i < g.number_of_workers) := by
    intro i hi
    have h12 : i < 12 := List.mem_range.mp hi
    by_cases hlt : i < g.number_of_workers
    · rcases hone i hlt with ⟨w, hw, ha, hr, hgid, _⟩
      unfold liveAt
      rw [hw]
      simp [liveB, ha, hr, hgid, hlt]
    · unfold liveAt
      cases hq : lookupW (init_worker_threads st).worker_threads
          (mkWorkerId g.name i) with
      | none => simp [hlt]
      | some w =>
        have hr := htwo i (by omega) h12 w hq
        simp only [liveB, Bool.and_eq_true, beq_iff_eq]
        simp [hlt, hr]
  rw [countP_congr_own hcong, countP_range12_lt g.number_of_workers hn]
  exact (Nat.min_eq_left hn).symm

/-- The first group of the C6 witness state, reused for the C1 witness. -/
def c1Group : WorkerGroup :=
  { id := 1, name := "A", number_of_workers := 1, event_schedules := [] }

/-- Witness for C1 at a concrete input: group A with one configured worker
ends with exactly one live handle. -/
theorem c1_witness :
    liveCount 1 (init_worker_threads c6State).worker_threads = min 1 12 :=
  (c1_capacity_invariant c6State c1Group (by decide) (by decide) (by decide)
    (by decide) (by decide)
    (by intro i hi w hw; simp [lookupW, c6State, emptyState] at hw)
    (by intro kv hkv; simp [c6State, emptyState] at hkv)).2.2

end Unmanic
